import Mathlib

/-!
# dwalk: separator sets and the size histogram

A shallow embedding of the separator and histogram code of `src/dwalk/dwalk.c`
(`distribute_separator_add`, `distribution_parse`, `create_default_separators` and the
counting part of `print_flist_distribution`) and of `add_type`, followed by theorems
about it.

Conventions of the embedding.

* `uint64_t` values are natural numbers; where the C code can wrap or leave the range
  this is written out (`% 2 ^ 64`, or an undefined result).
* The array `separators[MAX_DISTRIBUTE_SEPARATORS]` is a list; theorems assume it has
  128 slots where that matters.  `separator_number` is a C `int` that the program only
  ever sets to 0 and increments, so it is a natural number here.
* A C evaluation with undefined behaviour, a failed `assert`, or an exhausted loop
  budget is the result `none`.
* A C string is the list of its characters before the terminating NUL.  Library routines
  whose code is not in dwalk.c are parameters (`mfu_abtoull`) or are modelled from the
  specification, which their doc comment says.
-/

namespace Dwalk

/-- The constant `MAX_DISTRIBUTE_SEPARATORS` (dwalk.c line 37). -/
def MAX_DISTRIBUTE_SEPARATORS : Nat := 128

/-- The record `struct distribute_option` (dwalk.c lines 38-41). -/
structure distribute_option where
  separator_number : Nat
  separators : List Nat
deriving DecidableEq, Repr

/-- How the binary-search loop of `distribute_separator_add` (lines 217-228) is left:
by `return -1` on a hit, by its loop condition turning false, or (in the embedding
only) by an exhausted iteration budget. -/
inductive search_exit where
  | duplicate : search_exit
  | done (low high : Nat) : search_exit
  | no_fuel : search_exit
deriving DecidableEq, Repr

/-- The loop `while (low < high) { ... }` of `distribute_separator_add`, lines 217-228,
with an iteration budget. -/
def search_loop (separators : List Nat) (separator : Nat) : Nat → Nat → Nat → search_exit
  | 0, low, high => if low < high then search_exit.no_fuel else search_exit.done low high
  | fuel + 1, low, high =>
    if low < high then
      let middle := (high - low) / 2 + low
      if separators.getD middle 0 = separator then search_exit.duplicate
      else if separators.getD middle 0 < separator then
        search_loop separators separator fuel (middle + 1) high
      else
        search_loop separators separator fuel low middle
    else search_exit.done low high

/-- The library call `memmove(&a[dst], &a[src], n * sizeof *a)`: the `n` elements that
start at `src` are copied, as if through a temporary buffer, to the positions that start
at `dst`. -/
def memmove (a : List Nat) (dst src n : Nat) : List Nat :=
  (List.range n).foldl (fun acc k => acc.set (dst + k) (a.getD (src + k) 0)) a

/-- The function `distribute_separator_add` (lines 196-244).  The result is the returned
`int` together with the option record as the call leaves it. -/
def distribute_separator_add (option : distribute_option) (separator : Nat) :
    Option (Int × distribute_option) :=
  let count := option.separator_number
  let option : distribute_option :=
    { separator_number := option.separator_number + 1, separators := option.separators }
  if option.separator_number > MAX_DISTRIBUTE_SEPARATORS then
    some (-1, option)
  else if count = 0 then
    some (0, { separator_number := option.separator_number,
               separators := option.separators.set 0 separator })
  else
    match search_loop option.separators separator count 0 (count - 1) with
    | search_exit.no_fuel => none
    | search_exit.duplicate => some (-1, option)
    | search_exit.done low high =>
      if low ≠ high then none
      else if option.separators.getD low 0 = separator then some (-1, option)
      else
        let pos := if option.separators.getD low 0 < separator then low + 1 else low
        let moved :=
          if pos < count then memmove option.separators (low + 1) low (count - pos)
          else option.separators
        some (0, { separator_number := option.separator_number,
                   separators := moved.set pos separator })

/-- What the search loop maintains on an ascending array with `n` used slots: every slot
left of `low` holds less than `v`, and `high` is the last used slot or holds more than
`v`. -/
def search_inv (a : List Nat) (n v low high : Nat) : Prop :=
  (∀ i, i < low → a.getD i 0 < v) ∧ (high + 1 = n ∨ v < a.getD high 0) ∧
    low ≤ high ∧ high < n

/-- The successive calls `distribute_separator_add(option, separator)` that the loop of
`distribution_parse` (lines 271-291) makes for a list of already parsed values; as there,
the first call that does not return 0 ends the run with a failure. -/
def insert_all : distribute_option → List Nat → Option distribute_option
  | option, [] => some option
  | option, separator :: rest =>
    match distribute_separator_add option separator with
    | some (r, option') => if r = 0 then insert_all option' rest else none
    | none => none

/-- The loop over `j` of `print_flist_distribution`, lines 122-133: the first `j` below
`separators` with `file_size <= option->separators[j]`, at which the loop breaks, or
`none` when the loop runs to its end and `max_bin_flag` stays -1. -/
def find_bin (option : distribute_option) (separators : Nat) (file_size : Nat) :
    Option Nat :=
  (List.range separators).find? (fun j => decide (file_size ≤ option.separators.getD j 0))

/-- One pass of the loop over the files of `print_flist_distribution`, lines 114-139:
`dist[j]++` for the bin found, else `dist[separators]++`; the counters are `uint64_t`. -/
def count_file (option : distribute_option) (separators : Nat) (dist : List Nat)
    (file_size : Nat) : List Nat :=
  match find_bin option separators file_size with
  | some j => dist.set j ((dist.getD j 0 + 1) % 2 ^ 64)
  | none => dist.set separators ((dist.getD separators 0 + 1) % 2 ^ 64)

/-- The array `dist` of `print_flist_distribution` after lines 106-139 on one rank:
`separators + 1` counters set to 0, then one pass of the counting loop per file of the
local list, given by its file sizes. -/
def dist (option : distribute_option) (separators : Nat) (sizes : List Nat) : List Nat :=
  sizes.foldl (count_file option separators) (List.replicate (separators + 1) 0)

/-- The reduction `MPI_Allreduce(..., count, MPI_UINT64_T, MPI_SUM, ...)`: element `i` of
the result is the sum, in `uint64_t`, of element `i` of the buffer of every rank. -/
def MPI_Allreduce_SUM (count : Nat) (sendbufs : List (List Nat)) : List Nat :=
  (List.range count).map
    (fun i => sendbufs.foldl (fun acc buf => (acc + buf.getD i 0) % 2 ^ 64) 0)

/-- The array `disttotal` of `print_flist_distribution`, lines 142-143; `ranks` holds the
file sizes of the local list of every rank. -/
def disttotal (option : distribute_option) (separators : Nat) (ranks : List (List Nat)) :
    List Nat :=
  MPI_Allreduce_SUM (separators + 1) (ranks.map (dist option separators))

/-- The loop of `create_default_separators`, lines 50-56, on the file sizes of the local
list. -/
def local_max_file_size (sizes : List Nat) : Nat :=
  sizes.foldl (fun local_max file_size => if file_size > local_max then file_size
    else local_max) 0

/-- The reduction `MPI_Allreduce(..., 1, MPI_UINT64_T, MPI_MAX, ...)` of line 59. -/
def MPI_Allreduce_MAX (locals : List Nat) : Nat :=
  locals.foldl max 0

/-- Line 69 of `create_default_separators`,
`(ceil(log2(*global_max_file_size) / 10)) * 10`, for a `uint64_t` size, as IEEE double
arithmetic evaluates it: the size is converted to `double`, `log2` returns the double
nearest to the logarithm, and the quotient by 10 is rounded once more before `ceil`.
The result is the least multiple of 10 that is at least the base-2 logarithm of the size
(`Nat.clog 2 m` is the ceiling of the logarithm), with two exceptions in the `uint64_t`
range, where the logarithm lies so little above 50 or 60 that `log2` returns exactly 50.0
or 60.0: the sizes `2 ^ 50 + 1` and `2 ^ 50 + 2` give 50, and the sizes from `2 ^ 60 + 1`
to `2 ^ 60 + 2943` (which the conversion to `double` takes to at most `2 ^ 60 + 2816`)
give 60.  For 0 the logarithm is minus infinity, whose conversion to `uint64_t` is
undefined. -/
def max_magnitude_bin (global_max_file_size : Nat) : Option Nat :=
  if global_max_file_size = 0 then none
  else if 2 ^ 50 < global_max_file_size ∧ global_max_file_size ≤ 2 ^ 50 + 2 then some 50
  else if 2 ^ 60 < global_max_file_size ∧ global_max_file_size ≤ 2 ^ 60 + 2943 then some 60
  else some ((Nat.clog 2 global_max_file_size + 9) / 10 * 10)

/-- The loop `for (int i = 1; power <= max_magnitude_bin; i++)` of
`create_default_separators`, lines 76-80, with an iteration budget.  A store of
`pow(2, power)` that does not fit `uint64_t`, or one behind the end of the array, is
undefined. -/
def separators_loop (max_magnitude_bin : Nat) :
    Nat → Nat → Nat → List Nat → Option (List Nat)
  | 0, _, power, separators => if power ≤ max_magnitude_bin then none else some separators
  | fuel + 1, i, power, separators =>
    if power ≤ max_magnitude_bin then
      if 2 ^ power < 2 ^ 64 ∧ i < separators.length then
        separators_loop max_magnitude_bin fuel (i + 1) (power + 10)
          (separators.set i (2 ^ power))
      else none
    else some separators

/-- The function `create_default_separators` from line 62 on, for the value that the
reduction of line 59 left in `*global_max_file_size`.  The result is the option record
as the call leaves it together with the count stored in `*separators`. -/
def create_default_separators (option : distribute_option) (global_max_file_size : Nat) :
    Option (distribute_option × Nat) :=
  match max_magnitude_bin global_max_file_size with
  | none => none
  | some max_magnitude_bin =>
    if 0 < option.separators.length then
      match separators_loop max_magnitude_bin max_magnitude_bin 1 10
          (option.separators.set 0 1) with
      | none => none
      | some separators =>
        some ({ separator_number := option.separator_number, separators := separators },
          max_magnitude_bin / 10)
    else none

/-- The counts that `print_flist_distribution` prints (lines 94-143 and the `number`
of every printed line), for the file sizes held by every rank. -/
def print_flist_distribution (file_histogram : Bool) (option : distribute_option)
    (ranks : List (List Nat)) : Option (List Nat) :=
  if file_histogram then
    match create_default_separators option
        (MPI_Allreduce_MAX (ranks.map local_max_file_size)) with
    | none => none
    | some (option', separators) => some (disttotal option' separators ranks)
  else some (disttotal option option.separator_number ranks)

/-- The index of the counter that one pass of the counting loop increments: the bin found
by the loop over `j`, else the last bin `separators`. -/
def bin_index (option : distribute_option) (separators : Nat) (file_size : Nat) : Nat :=
  (find_bin option separators file_size).getD separators

/-- For every bin `k` from 0 to `separators`, the number of the given file sizes whose
counting pass increments counter `k`. -/
def bin_counts (option : distribute_option) (separators : Nat) (sizes : List Nat) :
    List Nat :=
  (List.range (separators + 1)).map
    (fun k => sizes.countP (fun file_size => bin_index option separators file_size == k))

/-- A separator set that uses three of its 128 slots, for the examples below. -/
def option_1_5_9 : distribute_option :=
  { separator_number := 3, separators := [1, 5, 9] ++ List.replicate 125 0 }

/-- What `distribution_parse` prints before it gives up: the token of
`printf("Invalid separator \"%s\"\n", ptr)` (line 279) or the value of
`printf("Duplicated separator \"%llu\"\n", separator)` (line 285). -/
inductive parse_report where
  | invalid_separator (token : List Char) : parse_report
  | duplicated_separator (separator : Nat) : parse_report
deriving DecidableEq, Repr

/-- The text `"size"` that `distribution_parse` compares with (lines 254-263). -/
def size_keyword : List Char := ['s', 'i', 'z', 'e']

/-- The loop `while (ptr && ptr < str + strlen(string))` of `distribution_parse`, lines
271-291, with an iteration budget.  A C string is the list of its characters; `ptr` is
`none` for `NULL` and else the text from `ptr` to the end of `str`.  `mfu_abtoull` is the
number parser of the library, `none` standing for a result other than `MFU_SUCCESS`.  The
result is the status, the option record as the loop leaves it, and what was printed. -/
def parse_loop (mfu_abtoull : List Char → Option Nat) :
    Nat → Option (List Char) → distribute_option →
      Option (Int × distribute_option × Option parse_report)
  | _, none, option => some (0, option, none)
  | _, some [], option => some (0, option, none)
  | 0, some (_ :: _), _ => none
  | fuel + 1, some (c :: cs), option =>
    let ptr := c :: cs
    let token := ptr.takeWhile (fun x => x ≠ ',')
    let next := if ',' ∈ ptr then some ((ptr.dropWhile (fun x => x ≠ ',')).drop 1) else none
    match mfu_abtoull token with
    | none => some (-1, option, some (parse_report.invalid_separator token))
    | some separator =>
      match distribute_separator_add option separator with
      | none => none
      | some (r, option') =>
        if r ≠ 0 then some (-1, option', some (parse_report.duplicated_separator separator))
        else parse_loop mfu_abtoull fuel next option'

/-- The function `distribution_parse` (lines 246-296) for a given number parser
`mfu_abtoull`. -/
def distribution_parse (mfu_abtoull : List Char → Option Nat) (option : distribute_option)
    (string : List Char) : Option (Int × distribute_option × Option parse_report) :=
  if string.take 4 ≠ size_keyword then some (-1, option, none)
  else
    let option : distribute_option :=
      { separator_number := 0, separators := option.separators }
    if string.length = 4 then some (0, option, none)
    else if string[4]? ≠ some ':' then some (-1, option, none)
    else parse_loop mfu_abtoull string.length (some (string.drop 5)) option

/-- The tokens of a list joined by commas. -/
def join_tokens : List (List Char) → List Char
  | [] => []
  | [token] => token
  | token :: next :: rest => token ++ ',' :: join_tokens (next :: rest)

/-- The tokens that the loop of `distribution_parse` reads from a comma-separated list:
all of them but an empty token at the very end, where `ptr` has reached the end of the
text. -/
def read_tokens : List (List Char) → List (List Char)
  | [] => []
  | [token] => if token = [] then [] else [token]
  | token :: next :: rest => token :: read_tokens (next :: rest)

/-- The passes of the loop of `distribution_parse` over a list of tokens: parse the
token, insert its value, stop at the first failure. -/
def parse_tokens (mfu_abtoull : List Char → Option Nat) :
    List (List Char) → distribute_option →
      Option (Int × distribute_option × Option parse_report)
  | [], option => some (0, option, none)
  | token :: rest, option =>
    match mfu_abtoull token with
    | none => some (-1, option, some (parse_report.invalid_separator token))
    | some separator =>
      match distribute_separator_add option separator with
      | none => none
      | some (r, option') =>
        if r ≠ 0 then some (-1, option', some (parse_report.duplicated_separator separator))
        else parse_tokens mfu_abtoull rest option'

/-- Modelled from the spec: the number parser `mfu_abtoull` of the mfu library, which is
not part of this source file, on the tokens that are plain unsigned decimal integers
("a comma-separated list of unsigned integers"): a non-empty text of decimal digits with
a value below `2 ^ 64` resolves to that value.  Byte-unit suffixes are not modelled; this
parser rejects such tokens and the examples do not use them. -/
def decimal_abtoull (token : List Char) : Option Nat :=
  if token = [] then none
  else if token.all (fun c => decide (48 ≤ c.toNat ∧ c.toNat ≤ 57)) then
    let value := token.foldl (fun acc c => 10 * acc + (c.toNat - 48)) 0
    if value < 2 ^ 64 then some value else none
  else none

/-- A number parser that accepts the empty text, with the value 0, and otherwise what
`decimal_abtoull` accepts: an instance of the given function `mfu_abtoull` for which an
empty token is a valid token. -/
def empty_as_zero_abtoull (token : List Char) : Option Nat :=
  if token = [] then some 0 else decimal_abtoull token

/-- The decimal numeral of `n < 1000` with three digits. -/
def three_digits (n : Nat) : List Char :=
  [Char.ofNat (48 + n / 100 % 10), Char.ofNat (48 + n / 10 % 10), Char.ofNat (48 + n % 10)]

/-- The text `size:000,001,...,128,000`: 129 tokens with the values 0 to 128 and then a
token that repeats the value 0. -/
def text_130_tokens : List Char :=
  size_keyword ++ ':' :: join_tokens ((List.range 129).map three_digits ++ [three_digits 0])

/-- The predicate functions that `main` hands to `mfu_pred_add` (lines 547-616) and
`add_type` (line 394). -/
inductive mfu_pred_fn where
  | MFU_PRED_AMIN : mfu_pred_fn
  | MFU_PRED_MMIN : mfu_pred_fn
  | MFU_PRED_CMIN : mfu_pred_fn
  | MFU_PRED_ATIME : mfu_pred_fn
  | MFU_PRED_MTIME : mfu_pred_fn
  | MFU_PRED_CTIME : mfu_pred_fn
  | MFU_PRED_ANEWER : mfu_pred_fn
  | MFU_PRED_CNEWER : mfu_pred_fn
  | MFU_PRED_GID : mfu_pred_fn
  | MFU_PRED_GROUP : mfu_pred_fn
  | MFU_PRED_UID : mfu_pred_fn
  | MFU_PRED_USER : mfu_pred_fn
  | MFU_PRED_SIZE : mfu_pred_fn
  | MFU_PRED_TYPE : mfu_pred_fn
deriving DecidableEq, Repr

/-- What the argument `void* arg` of a predicate points to in dwalk.c: the `mode_t` of
`add_type`, the copy of an option text (`MFU_STRDUP(optarg)`), the `mfu_pred_times` of
`get_mtimes`, or the result of `mfu_pred_relative(optarg, now_t)`, kept as the option
text and the times it was computed from. -/
inductive pred_arg where
  | mode (type : Nat) : pred_arg
  | text (buf : List Char) : pred_arg
  | times (secs nsecs : Nat) : pred_arg
  | relative (optarg : List Char) (now_secs now_nsecs : Nat) : pred_arg
deriving DecidableEq, Repr

/-- A node of the predicate chain `mfu_pred`: the predicate function and its argument.
The chain behind the head `pred_head` is the list of its nodes in order. -/
structure mfu_pred where
  f : mfu_pred_fn
  arg : pred_arg
deriving DecidableEq, Repr

/-- Modelled from the spec: `mfu_pred_add` of the mfu library, which is not part of this
source file.  "`append(kind, payload)`: adds a predicate node at the tail". -/
def mfu_pred_add (p : List mfu_pred) (predicate : mfu_pred_fn) (arg : pred_arg) :
    List mfu_pred :=
  p ++ [{ f := predicate, arg := arg }]

/-- The file type mask `S_IFBLK` of `<sys/stat.h>`, with its value on Linux. -/
def S_IFBLK : Nat := 0o060000

/-- The file type mask `S_IFCHR` of `<sys/stat.h>`, with its value on Linux. -/
def S_IFCHR : Nat := 0o020000

/-- The file type mask `S_IFDIR` of `<sys/stat.h>`, with its value on Linux. -/
def S_IFDIR : Nat := 0o040000

/-- The file type mask `S_IFREG` of `<sys/stat.h>`, with its value on Linux. -/
def S_IFREG : Nat := 0o100000

/-- The file type mask `S_IFLNK` of `<sys/stat.h>`, with its value on Linux. -/
def S_IFLNK : Nat := 0o120000

/-- The file type mask `S_IFIFO` of `<sys/stat.h>`, with its value on Linux. -/
def S_IFIFO : Nat := 0o010000

/-- The file type mask `S_IFSOCK` of `<sys/stat.h>`, with its value on Linux. -/
def S_IFSOCK : Nat := 0o140000

/-- The function `add_type` (lines 360-396): the returned `int` and the chain behind `p`
as the call leaves it. -/
def add_type (p : List mfu_pred) (t : Char) : Int × List mfu_pred :=
  let type : Option Nat :=
    if t = 'b' then some S_IFBLK
    else if t = 'c' then some S_IFCHR
    else if t = 'd' then some S_IFDIR
    else if t = 'f' then some S_IFREG
    else if t = 'l' then some S_IFLNK
    else if t = 'p' then some S_IFIFO
    else if t = 's' then some S_IFSOCK
    else none
  match type with
  | none => (-1, p)
  | some type => (1, mfu_pred_add p mfu_pred_fn.MFU_PRED_TYPE (pred_arg.mode type))

/-- A predicate chain with two nodes, for the examples below. -/
def chain_uid_size : List mfu_pred :=
  [{ f := mfu_pred_fn.MFU_PRED_UID, arg := pred_arg.text ['0'] },
   { f := mfu_pred_fn.MFU_PRED_SIZE, arg := pred_arg.text ['+', '1', 'K'] }]

/-! ## Arrays as lists -/

theorem getD_lt_of_pairwise (a : List Nat) (n : Nat) (hn : n ≤ a.length)
    (h : (a.take n).Pairwise (· < ·)) (i j : Nat) (hij : i < j) (hj : j < n) :
    a.getD i 0 < a.getD j 0 := by
  rw [List.pairwise_iff_getElem] at h
  have hl : (a.take n).length = n := by simp [hn]
  have := h i j (by omega) (by omega) hij
  simp only [List.getElem_take] at this
  rw [List.getD_eq_getElem _ _ (by omega), List.getD_eq_getElem _ _ (by omega)]
  exact this

theorem memmove_succ (a : List Nat) (dst src n : Nat) :
    memmove a dst src (n + 1) = (memmove a dst src n).set (dst + n) (a.getD (src + n) 0) := by
  simp [memmove, List.range_succ, List.foldl_append]

theorem length_memmove (a : List Nat) (dst src n : Nat) :
    (memmove a dst src n).length = a.length := by
  induction n with
  | zero => simp [memmove]
  | succ n ih => rw [memmove_succ, List.length_set, ih]

theorem getElem?_memmove (a : List Nat) (dst src n i : Nat) :
    (memmove a dst src n)[i]? =
      if dst ≤ i ∧ i < dst + n ∧ i < a.length then some (a.getD (src + (i - dst)) 0)
      else a[i]? := by
  induction n with
  | zero =>
    rw [if_neg (by omega)]
    simp [memmove]
  | succ n ih =>
    rw [memmove_succ, List.getElem?_set, ih, length_memmove]
    by_cases h1 : dst + n = i
    · subst h1
      by_cases h2 : dst + n < a.length
      · simp [h2]
      · have h5 : a.length ≤ dst + n := by omega
        simp [h2, List.getElem?_eq_none h5]
    · simp only [h1, if_false]
      by_cases h3 : dst ≤ i ∧ i < dst + n ∧ i < a.length
      · have h4 : dst ≤ i ∧ i < dst + (n + 1) ∧ i < a.length := ⟨h3.1, by omega, h3.2.2⟩
        simp [h3, h4]
      · have h4 : ¬ (dst ≤ i ∧ i < dst + (n + 1) ∧ i < a.length) := by
          intro h; exact h3 ⟨h.1, by omega, h.2.2⟩
        simp [h3, h4]

/-- Writing `v` at `pos` after the shift done by `distribute_separator_add` is list
insertion at `pos` into the first `n` slots. -/
theorem shift_set_eq (a : List Nat) (n pos v : Nat) (hpos : pos ≤ n) (hn : n < a.length) :
    (if pos < n then memmove a (pos + 1) pos (n - pos) else a).set pos v =
      a.take pos ++ v :: ((a.take n).drop pos ++ a.drop (n + 1)) := by
  apply List.ext_getElem?
  intro i
  have hlen : (if pos < n then memmove a (pos + 1) pos (n - pos) else a).length = a.length := by
    split
    · exact length_memmove _ _ _ _
    · rfl
  rw [List.getElem?_set, hlen]
  rcases Nat.lt_trichotomy i pos with h | h | h
  · rw [if_neg (by omega), List.getElem?_append_left (by simp; omega), List.getElem?_take,
      if_pos h]
    split
    · rw [getElem?_memmove, if_neg (by omega)]
    · rfl
  · subst h
    rw [if_pos rfl, if_pos (by omega),
      List.getElem?_append_right (by simp), List.length_take, Nat.min_eq_left (by omega)]
    simp
  · rw [if_neg (by omega), List.getElem?_append_right (by simp; omega), List.length_take,
      Nat.min_eq_left (by omega)]
    obtain ⟨k, rfl⟩ : ∃ k, i = pos + 1 + k := ⟨i - pos - 1, by omega⟩
    rw [show pos + 1 + k - pos = k + 1 by omega, List.getElem?_cons_succ]
    by_cases hk : pos + 1 + k ≤ n
    · rw [List.getElem?_append_left (by simp; omega), List.getElem?_drop, List.getElem?_take,
        if_pos (by omega), if_pos (by omega), getElem?_memmove, if_pos (by omega)]
      rw [List.getD_eq_getElem _ _ (by omega), List.getElem?_eq_getElem (by omega)]
      congr 2
      omega
    · have h2 : (if pos < n then memmove a (pos + 1) pos (n - pos) else a)[pos + 1 + k]? =
          a[pos + 1 + k]? := by
        split
        · rw [getElem?_memmove, if_neg (by omega)]
        · rfl
      rw [h2, List.getElem?_append_right (by simp; omega), List.getElem?_drop]
      congr 1
      simp
      omega

/-! ## The binary search of `distribute_separator_add` -/

theorem search_loop_spec (a : List Nat) (n v : Nat)
    (hasc : ∀ i j, i < j → j < n → a.getD i 0 < a.getD j 0) :
    ∀ fuel low high, high - low ≤ fuel → search_inv a n v low high →
      (search_loop a v fuel low high = search_exit.duplicate ∧ ∃ i, i < n ∧ a.getD i 0 = v) ∨
      (∃ l, search_loop a v fuel low high = search_exit.done l l ∧ search_inv a n v l l) := by
  intro fuel
  induction fuel with
  | zero =>
    intro low high hf hinv
    right
    refine ⟨low, ?_, ?_⟩
    · have : low = high := by have := hinv.2.2.1; omega
      subst this
      simp [search_loop]
    · have : low = high := by have := hinv.2.2.1; omega
      subst this
      exact hinv
  | succ fuel ih =>
    intro low high hf hinv
    obtain ⟨h1, h2, h3, h4⟩ := hinv
    by_cases hlt : low < high
    · have hm1 : low ≤ (high - low) / 2 + low := by omega
      have hm2 : (high - low) / 2 + low < high := by omega
      rw [search_loop, if_pos hlt]
      simp only []
      by_cases heq : a.getD ((high - low) / 2 + low) 0 = v
      · left
        rw [if_pos heq]
        exact ⟨rfl, _, by omega, heq⟩
      · rw [if_neg heq]
        by_cases hless : a.getD ((high - low) / 2 + low) 0 < v
        · rw [if_pos hless]
          apply ih _ _ (by omega)
          refine ⟨?_, h2, by omega, h4⟩
          intro i hi
          rcases Nat.lt_or_ge i ((high - low) / 2 + low) with h | h
          · exact Nat.lt_trans (hasc i _ h (by omega)) hless
          · have : i = (high - low) / 2 + low := by omega
            rw [this]; exact hless
        · rw [if_neg hless]
          apply ih _ _ (by omega)
          exact ⟨h1, Or.inr (by omega), hm1, by omega⟩
    · right
      have : low = high := by omega
      subst this
      exact ⟨low, by simp [search_loop], h1, h2, h3, h4⟩

/-- The three outcomes of `distribute_separator_add` on a set whose used slots ascend:
the capacity failure, the duplicate failure, and the insertion. -/
theorem distribute_separator_add_cases (o : distribute_option) (v : Nat)
    (hlen : o.separators.length = MAX_DISTRIBUTE_SEPARATORS)
    (hn : o.separator_number ≤ MAX_DISTRIBUTE_SEPARATORS)
    (hasc : (o.separators.take o.separator_number).Pairwise (· < ·)) :
    (o.separator_number = MAX_DISTRIBUTE_SEPARATORS ∧
      distribute_separator_add o v = some (-1, ⟨o.separator_number + 1, o.separators⟩)) ∨
    (o.separator_number < MAX_DISTRIBUTE_SEPARATORS ∧
      v ∈ o.separators.take o.separator_number ∧
      distribute_separator_add o v = some (-1, ⟨o.separator_number + 1, o.separators⟩)) ∨
    (o.separator_number < MAX_DISTRIBUTE_SEPARATORS ∧
      v ∉ o.separators.take o.separator_number ∧
      ∃ pos, pos ≤ o.separator_number ∧
        (∀ i, i < pos → o.separators.getD i 0 < v) ∧
        (∀ i, pos ≤ i → i < o.separator_number → v < o.separators.getD i 0) ∧
        distribute_separator_add o v = some (0, ⟨o.separator_number + 1,
          o.separators.take pos ++
            v :: ((o.separators.take o.separator_number).drop pos ++
              o.separators.drop (o.separator_number + 1))⟩)) := by
  obtain ⟨n, a⟩ := o
  simp only [MAX_DISTRIBUTE_SEPARATORS] at *
  have hsorted := getD_lt_of_pairwise a n (by omega) hasc
  have hmem : ∀ i, i < n → a.getD i 0 ∈ a.take n := by
    intro i hi
    rw [List.getD_eq_getElem _ _ (by omega), List.mem_take_iff_getElem]
    exact ⟨i, by omega, rfl⟩
  have hnotmem : (∀ i, i < n → a.getD i 0 ≠ v) → v ∉ a.take n := by
    intro h hv
    rw [List.mem_take_iff_getElem] at hv
    obtain ⟨i, hi, hiv⟩ := hv
    apply h i (by omega)
    rw [List.getD_eq_getElem _ _ (by omega)]
    exact hiv
  by_cases h128 : n = 128
  · left
    refine ⟨h128, ?_⟩
    simp [distribute_separator_add, MAX_DISTRIBUTE_SEPARATORS, h128]
  right
  have hn' : n < 128 := by omega
  by_cases h0 : n = 0
  · right
    subst h0
    refine ⟨hn', by simp, 0, Nat.le_refl _, by intro i hi; omega, by intro i _ hi; omega, ?_⟩
    have := shift_set_eq a 0 0 v (Nat.le_refl _) (by omega)
    simp only [Nat.lt_irrefl, if_false] at this
    simp only [distribute_separator_add, MAX_DISTRIBUTE_SEPARATORS]
    rw [if_neg (by omega), if_pos trivial, this]
  have hinit : search_inv a n v 0 (n - 1) :=
    ⟨by intro i hi; omega, Or.inl (by omega), by omega, by omega⟩
  rcases search_loop_spec a n v hsorted n 0 (n - 1) (by omega) hinit with
    ⟨hs, i, hi, hiv⟩ | ⟨l, hs, hl1, hl2, _, hl4⟩
  · left
    refine ⟨hn', hiv ▸ hmem i hi, ?_⟩
    simp only [distribute_separator_add, MAX_DISTRIBUTE_SEPARATORS]
    rw [if_neg (by omega), if_neg h0, hs]
  · by_cases heq : a.getD l 0 = v
    · left
      refine ⟨hn', heq ▸ hmem l hl4, ?_⟩
      simp only [distribute_separator_add, MAX_DISTRIBUTE_SEPARATORS]
      rw [if_neg (by omega), if_neg h0, hs]
      simp only [ne_eq, not_true_eq_false, if_false, heq, if_true]
    · right
      by_cases hless : a.getD l 0 < v
      · have hln : l + 1 = n := by
          rcases hl2 with h | h
          · exact h
          · omega
        have hall : ∀ i, i < n → a.getD i 0 < v := by
          intro i hi
          rcases Nat.lt_or_ge i l with h | h
          · exact hl1 i h
          · have : i = l := by omega
            rw [this]; exact hless
        refine ⟨hn', hnotmem (fun i hi => Nat.ne_of_lt (hall i hi)), n, Nat.le_refl _, hall,
          by intro i h1 h2; omega, ?_⟩
        have := shift_set_eq a n n v (Nat.le_refl _) (by omega)
        simp only [Nat.lt_irrefl, if_false] at this
        simp only [distribute_separator_add, MAX_DISTRIBUTE_SEPARATORS]
        rw [if_neg (by omega), if_neg h0, hs]
        simp only [ne_eq, not_true_eq_false, if_false, heq, hless, if_true, hln,
          Nat.lt_irrefl]
        rw [this]
      · have hgt : v < a.getD l 0 := by omega
        have hup : ∀ i, l ≤ i → i < n → v < a.getD i 0 := by
          intro i h1 h2
          rcases Nat.eq_or_lt_of_le h1 with h | h
          · rw [← h]; exact hgt
          · exact Nat.lt_trans hgt (hsorted l i h h2)
        have hne : ∀ i, i < n → a.getD i 0 ≠ v := by
          intro i hi
          rcases Nat.lt_or_ge i l with h | h
          · exact Nat.ne_of_lt (hl1 i h)
          · exact Nat.ne_of_gt (hup i h hi)
        refine ⟨hn', hnotmem hne, l, by omega, hl1, hup, ?_⟩
        have := shift_set_eq a n l v (by omega) (by omega)
        simp only [distribute_separator_add, MAX_DISTRIBUTE_SEPARATORS]
        rw [if_neg (by omega), if_neg h0, hs]
        simp only [ne_eq, not_true_eq_false, if_false, heq, hless]
        rw [this]

theorem lt_of_mem_take_take (a : List Nat) (n pos v : Nat) (hpos : pos ≤ n)
    (hn : n ≤ a.length) (h : ∀ i, i < pos → a.getD i 0 < v) :
    ∀ x ∈ (a.take n).take pos, x < v := by
  intro x hx
  rw [List.take_take, Nat.min_eq_left hpos, List.mem_take_iff_getElem] at hx
  obtain ⟨i, hi, rfl⟩ := hx
  have := h i (by omega)
  rwa [List.getD_eq_getElem _ _ (by omega)] at this

theorem gt_of_mem_drop_take (a : List Nat) (n pos v : Nat)
    (hn : n ≤ a.length) (h : ∀ i, pos ≤ i → i < n → v < a.getD i 0) :
    ∀ x ∈ (a.take n).drop pos, v < x := by
  intro x hx
  rw [List.mem_iff_getElem] at hx
  obtain ⟨i, hi, rfl⟩ := hx
  simp only [List.length_drop, List.length_take] at hi
  have := h (pos + i) (by omega) (by omega)
  rw [List.getD_eq_getElem _ _ (by omega)] at this
  simpa using this

/-- A successful insertion, as the later theorems use it: the first `n + 1` slots are the
old first `n` with `v` inserted at `pos`, they ascend, and the slots behind them keep
their content. -/
theorem distribute_separator_add_insert (o : distribute_option) (v : Nat)
    (hlen : o.separators.length = MAX_DISTRIBUTE_SEPARATORS)
    (hn : o.separator_number < MAX_DISTRIBUTE_SEPARATORS)
    (hasc : (o.separators.take o.separator_number).Pairwise (· < ·))
    (hnew : v ∉ o.separators.take o.separator_number) :
    ∃ o' pos, distribute_separator_add o v = some (0, o') ∧
      o'.separator_number = o.separator_number + 1 ∧
      o'.separators.length = MAX_DISTRIBUTE_SEPARATORS ∧
      pos ≤ o.separator_number ∧
      (∀ i, i < pos → o.separators.getD i 0 < v) ∧
      (∀ i, pos ≤ i → i < o.separator_number → v < o.separators.getD i 0) ∧
      o'.separators.take (o.separator_number + 1) =
        (o.separators.take o.separator_number).take pos ++
          v :: (o.separators.take o.separator_number).drop pos ∧
      o'.separators.drop (o.separator_number + 1) =
        o.separators.drop (o.separator_number + 1) ∧
      (o'.separators.take (o.separator_number + 1)).Pairwise (· < ·) := by
  rcases distribute_separator_add_cases o v hlen (Nat.le_of_lt hn) hasc with
    ⟨h, _⟩ | ⟨_, h, _⟩ | ⟨_, _, pos, hpos, hlo, hhi, hres⟩
  · omega
  · exact absurd h hnew
  · obtain ⟨n, a⟩ := o
    simp only [MAX_DISTRIBUTE_SEPARATORS] at *
    have hshape : a.take pos ++ v :: ((a.take n).drop pos ++ a.drop (n + 1)) =
        ((a.take n).take pos ++ v :: (a.take n).drop pos) ++ a.drop (n + 1) := by
      rw [List.take_take, Nat.min_eq_left hpos]
      simp
    have hl1 : ((a.take n).take pos ++ v :: (a.take n).drop pos).length = n + 1 := by
      simp
      omega
    have htake : (a.take pos ++ v :: ((a.take n).drop pos ++ a.drop (n + 1))).take (n + 1) =
        (a.take n).take pos ++ v :: (a.take n).drop pos := by
      rw [hshape]
      exact List.take_left' hl1
    refine ⟨_, pos, hres, rfl, ?_, hpos, hlo, hhi, htake, ?_, ?_⟩
    · show (a.take pos ++ v :: ((a.take n).drop pos ++ a.drop (n + 1))).length = 128
      rw [hshape, List.length_append, hl1]
      simp
      omega
    · show (a.take pos ++ v :: ((a.take n).drop pos ++ a.drop (n + 1))).drop (n + 1) = _
      rw [hshape]
      exact List.drop_left' hl1
    · show ((a.take pos ++ v :: ((a.take n).drop pos ++ a.drop (n + 1))).take (n + 1)).Pairwise _
      rw [htake, List.pairwise_append]
      refine ⟨hasc.sublist (List.take_sublist _ _), ?_, ?_⟩
      · rw [List.pairwise_cons]
        exact ⟨gt_of_mem_drop_take a n pos v (by omega) hhi,
          hasc.sublist (List.drop_sublist _ _)⟩
      · intro x hx y hy
        have h1 := lt_of_mem_take_take a n pos v hpos (by omega) hlo x hx
        rcases List.mem_cons.mp hy with h | h
        · rw [h]; exact h1
        · exact Nat.lt_trans h1 (gt_of_mem_drop_take a n pos v (by omega) hhi y h)

/-- Inserting a list of new, pairwise distinct values into an ascending set: every call
succeeds, the used slots end up ascending and hold the old and the new values. -/
theorem insert_all_spec (l : List Nat) :
    ∀ o : distribute_option,
      o.separators.length = MAX_DISTRIBUTE_SEPARATORS →
      o.separator_number + l.length ≤ MAX_DISTRIBUTE_SEPARATORS →
      (o.separators.take o.separator_number).Pairwise (· < ·) →
      l.Nodup →
      (∀ x ∈ l, x ∉ o.separators.take o.separator_number) →
      ∃ o', insert_all o l = some o' ∧
        o'.separator_number = o.separator_number + l.length ∧
        o'.separators.length = MAX_DISTRIBUTE_SEPARATORS ∧
        (o'.separators.take (o.separator_number + l.length)).Pairwise (· < ·) ∧
        (o'.separators.take (o.separator_number + l.length)).Perm
          (l ++ o.separators.take o.separator_number) ∧
        o'.separators.drop (o.separator_number + l.length) =
          o.separators.drop (o.separator_number + l.length) := by
  induction l with
  | nil =>
    intro o hlen _ hasc _ _
    exact ⟨o, rfl, rfl, hlen, by simpa using hasc, by simp, rfl⟩
  | cons v vs ih =>
    intro o hlen hcap hasc hnd hnew
    simp only [List.length_cons] at hcap
    obtain ⟨o1, pos, hres, hnum, hlen1, _, _, _, htake, hdrop, hasc1⟩ :=
      distribute_separator_add_insert o v hlen (by omega) hasc (hnew v (List.mem_cons_self _ _))
    have hperm1 : (o1.separators.take (o.separator_number + 1)).Perm
        (v :: o.separators.take o.separator_number) := by
      rw [htake]
      refine List.perm_middle.trans ?_
      rw [List.take_append_drop]
    rw [List.nodup_cons] at hnd
    have hnew1 : ∀ x ∈ vs, x ∉ o1.separators.take o1.separator_number := by
      intro x hx hmem
      rw [hnum] at hmem
      rcases List.mem_cons.mp (hperm1.mem_iff.mp hmem) with h | h
      · exact hnd.1 (h ▸ hx)
      · exact hnew x (List.mem_cons_of_mem _ hx) h
    obtain ⟨o2, hres2, hnum2, hlen2, hasc2, hperm2, hdrop2⟩ :=
      ih o1 hlen1 (by omega) (by rw [hnum]; exact hasc1) hnd.2 hnew1
    have hadd : o.separator_number + (vs.length + 1) = o1.separator_number + vs.length := by
      omega
    refine ⟨o2, ?_, ?_, hlen2, ?_, ?_, ?_⟩
    · simp [insert_all, hres, hres2]
    · simp only [List.length_cons]; omega
    · simp only [List.length_cons]; rw [hadd]; exact hasc2
    · simp only [List.length_cons]; rw [hadd]
      refine hperm2.trans ?_
      rw [hnum]
      refine (List.Perm.append_left vs hperm1).trans ?_
      exact List.perm_middle
    · simp only [List.length_cons]; rw [hadd, hdrop2, hnum]
      rw [← List.drop_drop vs.length (o.separator_number + 1) o1.separators,
        ← List.drop_drop vs.length (o.separator_number + 1) o.separators, hdrop]

/-- Inserting pairwise distinct values into an empty set leaves their ascending sort in
the used slots and does not touch the others. -/
theorem insert_all_empty (l init : List Nat)
    (hinit : init.length = MAX_DISTRIBUTE_SEPARATORS)
    (hl : l.length ≤ MAX_DISTRIBUTE_SEPARATORS) (hnd : l.Nodup) :
    insert_all ⟨0, init⟩ l =
      some ⟨l.length, l.insertionSort (· ≤ ·) ++ init.drop l.length⟩ := by
  obtain ⟨o', hres, hnum, _, hasc, hperm, hdrop⟩ :=
    insert_all_spec l ⟨0, init⟩ hinit (by simpa using hl) (by simp) hnd (by simp)
  simp only [Nat.zero_add, List.take_zero, List.append_nil] at hnum hasc hperm hdrop
  have hsort : o'.separators.take l.length = l.insertionSort (· ≤ ·) := by
    apply List.eq_of_perm_of_sorted (r := (· ≤ ·))
    · exact hperm.trans (List.perm_insertionSort _ l).symm
    · exact hasc.imp (fun h => Nat.le_of_lt h)
    · exact List.sorted_insertionSort _ l
  rw [hres]
  obtain ⟨n', a'⟩ := o'
  simp only at hnum hsort hdrop
  rw [← hsort, ← hdrop, List.take_append_drop, hnum]

/-! ## The counting loop of `print_flist_distribution` -/

theorem find_range_none (p : Nat → Bool) (n : Nat) :
    (List.range n).find? p = none ↔ ∀ j, j < n → p j = false := by
  rw [List.find?_eq_none]
  constructor
  · intro h j hj
    simpa using h j (List.mem_range.mpr hj)
  · intro h x hx
    simp [h x (List.mem_range.mp hx)]

theorem find_range_some (p : Nat → Bool) (n : Nat) :
    ∀ k, (List.range n).find? p = some k ↔
      k < n ∧ p k = true ∧ ∀ j, j < k → p j = false := by
  induction n with
  | zero => simp
  | succ n ih =>
    intro k
    rw [List.range_succ, List.find?_append]
    cases hf : (List.range n).find? p with
    | none =>
      rw [find_range_none] at hf
      simp only [Option.none_or]
      by_cases hp : p n = true
      · simp only [List.find?_cons, hp, Option.some.injEq]
        constructor
        · rintro rfl
          exact ⟨by omega, hp, hf⟩
        · rintro ⟨h1, h2, _⟩
          rcases Nat.lt_or_ge k n with h | h
          · rw [hf k h] at h2; exact absurd h2 (by decide)
          · omega
      · have hp' : p n = false := by simpa using hp
        simp only [List.find?_cons, hp', List.find?_nil]
        constructor
        · intro h; exact absurd h (by simp)
        · rintro ⟨h1, h2, _⟩
          rcases Nat.lt_or_ge k n with h | h
          · rw [hf k h] at h2; exact absurd h2 (by decide)
          · have : k = n := by omega
            rw [this, hp'] at h2; exact absurd h2 (by decide)
    | some k' =>
      have hk' := (ih k').mp hf
      simp only [Option.or, Option.some.injEq]
      constructor
      · rintro rfl
        exact ⟨by omega, hk'.2.1, hk'.2.2⟩
      · rintro ⟨_, h2, h3⟩
        rcases Nat.lt_trichotomy k' k with h | h | h
        · rw [h3 k' h] at hk'; exact absurd hk'.2.1 (by decide)
        · exact h
        · rw [hk'.2.2 k h] at h2; exact absurd h2 (by decide)

theorem bin_index_le (o : distribute_option) (n x : Nat) : bin_index o n x ≤ n := by
  unfold bin_index find_bin
  cases h : (List.range n).find? (fun j => decide (x ≤ o.separators.getD j 0)) with
  | none => simp
  | some k =>
    have := ((find_range_some _ n k).mp h).1
    simp only [Option.getD_some]
    omega

/-- The bin of a file size, for an arbitrary list of separators: bin `k` below
`separators` is taken when `k` is the first index whose separator is at least the size,
the last bin when every separator is smaller. -/
theorem bin_index_eq_iff (o : distribute_option) (n x k : Nat) :
    bin_index o n x = k ↔
      (k < n ∧ x ≤ o.separators.getD k 0 ∧ ∀ j, j < k → o.separators.getD j 0 < x) ∨
      (k = n ∧ ∀ j, j < n → o.separators.getD j 0 < x) := by
  unfold bin_index find_bin
  cases h : (List.range n).find? (fun j => decide (x ≤ o.separators.getD j 0)) with
  | none =>
    rw [find_range_none] at h
    simp only [decide_eq_false_iff_not, Nat.not_le] at h
    simp only [Option.getD_none]
    constructor
    · rintro rfl
      exact Or.inr ⟨rfl, h⟩
    · rintro (⟨h1, h2, _⟩ | ⟨h1, _⟩)
      · have := h k h1; omega
      · exact h1.symm
  | some k' =>
    have hk' := (find_range_some _ n k').mp h
    simp only [decide_eq_true_eq, decide_eq_false_iff_not, Nat.not_le] at hk'
    simp only [Option.getD_some]
    constructor
    · rintro rfl
      exact Or.inl hk'
    · rintro (⟨_, h2, h3⟩ | ⟨h1, h2⟩)
      · rcases Nat.lt_trichotomy k' k with h' | h' | h'
        · have := h3 k' h'; omega
        · exact h'
        · have := hk'.2.2 k h'; omega
      · have := h2 k' hk'.1; omega

theorem count_file_eq (o : distribute_option) (n : Nat) (d : List Nat) (x : Nat) :
    count_file o n d x =
      d.set (bin_index o n x) ((d.getD (bin_index o n x) 0 + 1) % 2 ^ 64) := by
  unfold count_file bin_index
  cases find_bin o n x <;> rfl

theorem length_bin_counts (o : distribute_option) (n : Nat) (xs : List Nat) :
    (bin_counts o n xs).length = n + 1 := by
  simp [bin_counts]

theorem getD_bin_counts (o : distribute_option) (n : Nat) (xs : List Nat) (k : Nat)
    (hk : k ≤ n) :
    (bin_counts o n xs).getD k 0 = xs.countP (fun x => bin_index o n x == k) := by
  rw [List.getD_eq_getElem _ _ (by rw [length_bin_counts]; omega)]
  simp [bin_counts]

theorem count_file_bin_counts (o : distribute_option) (n : Nat) (xs : List Nat) (x : Nat)
    (hlen : xs.length + 1 < 2 ^ 64) :
    count_file o n (bin_counts o n xs) x = bin_counts o n (xs ++ [x]) := by
  rw [count_file_eq, getD_bin_counts o n xs _ (bin_index_le o n x)]
  apply List.ext_getElem
  · simp [length_bin_counts]
  · intro i h1 h2
    rw [List.getElem_set]
    have hle : xs.countP (fun y => bin_index o n y == bin_index o n x) ≤ xs.length :=
      List.countP_le_length _
    simp only [bin_counts, List.getElem_map, List.getElem_range, List.countP_append,
      List.countP_cons, List.countP_nil, Nat.zero_add]
    by_cases hb : bin_index o n x = i
    · rw [if_pos hb, Nat.mod_eq_of_lt (by omega), hb]
      simp
    · rw [if_neg hb]
      simp [hb]

theorem foldl_count_file (o : distribute_option) (n : Nat) (suf : List Nat) :
    ∀ pre : List Nat, pre.length + suf.length < 2 ^ 64 →
      suf.foldl (count_file o n) (bin_counts o n pre) = bin_counts o n (pre ++ suf) := by
  induction suf with
  | nil => intro pre _; simp
  | cons x xs ih =>
    intro pre h
    simp only [List.length_cons] at h
    rw [List.foldl_cons, count_file_bin_counts o n pre x (by omega),
      ih (pre ++ [x]) (by simp; omega)]
    simp

/-- The counters after the counting loop: counter `k` is the number of local files whose
bin is `k`; with fewer than `2 ^ 64` files no counter wraps. -/
theorem dist_eq_bin_counts (o : distribute_option) (n : Nat) (sizes : List Nat)
    (h : sizes.length < 2 ^ 64) : dist o n sizes = bin_counts o n sizes := by
  have h0 : List.replicate (n + 1) 0 = bin_counts o n [] := by
    apply List.ext_getElem
    · simp [length_bin_counts]
    · intro i h1 h2
      simp [bin_counts]
  unfold dist
  rw [h0, foldl_count_file o n sizes [] (by simpa using h)]
  simp

theorem foldl_sum_dist (o : distribute_option) (n i : Nat) (hi : i ≤ n)
    (ranks : List (List Nat)) :
    ∀ acc, acc + ranks.flatten.length < 2 ^ 64 →
      (ranks.map (dist o n)).foldl (fun acc buf => (acc + buf.getD i 0) % 2 ^ 64) acc =
        acc + ranks.flatten.countP (fun x => bin_index o n x == i) := by
  induction ranks with
  | nil => intro acc _; simp
  | cons r rs ih =>
    intro acc h
    simp only [List.flatten_cons, List.length_append] at h
    have hr : (dist o n r).getD i 0 = r.countP (fun x => bin_index o n x == i) := by
      rw [dist_eq_bin_counts o n r (by omega), getD_bin_counts o n r i hi]
    have hle : r.countP (fun x => bin_index o n x == i) ≤ r.length := List.countP_le_length _
    simp only [List.map_cons, List.foldl_cons, List.flatten_cons, List.countP_append]
    rw [hr, Nat.mod_eq_of_lt (by omega), ih _ (by omega)]
    omega

/-- The reduced counters are the counters of the concatenation of all local lists. -/
theorem disttotal_eq_bin_counts (o : distribute_option) (n : Nat) (ranks : List (List Nat))
    (h : ranks.flatten.length < 2 ^ 64) :
    disttotal o n ranks = bin_counts o n ranks.flatten := by
  unfold disttotal MPI_Allreduce_SUM bin_counts
  apply List.map_congr_left
  intro i hi
  rw [foldl_sum_dist o n i (by have := List.mem_range.mp hi; omega) ranks 0 (by omega)]
  omega

/-! ## The default separators -/

/-- The value of line 69 for a size in the range `(2 ^ (10 * j), 2 ^ (10 * (j + 1))]`
at which the double-precision logarithm does not round down to 50.0 or 60.0. -/
theorem max_magnitude_bin_eq (m j : Nat) (h1 : 2 ^ (10 * j) < m)
    (h2 : m ≤ 2 ^ (10 * (j + 1)))
    (h50 : ¬ (2 ^ 50 < m ∧ m ≤ 2 ^ 50 + 2))
    (h60 : ¬ (2 ^ 60 < m ∧ m ≤ 2 ^ 60 + 2943)) :
    max_magnitude_bin m = some (10 * (j + 1)) := by
  have hm : m ≠ 0 := by
    have : 0 < 2 ^ (10 * j) := Nat.pow_pos (by decide)
    omega
  have hlo : 10 * j < Nat.clog 2 m := (Nat.pow_lt_iff_lt_clog (by decide)).mp h1
  have hhi : Nat.clog 2 m ≤ 10 * (j + 1) := (Nat.le_pow_iff_clog_le (by decide)).mp h2
  unfold max_magnitude_bin
  rw [if_neg hm, if_neg h50, if_neg h60]
  congr 1
  omega

theorem max_magnitude_bin_one : max_magnitude_bin 1 = some 0 := by
  simp [max_magnitude_bin]

/-- Up to `2 ^ 60`, and away from the two sizes `2 ^ 50 + 1` and `2 ^ 50 + 2`, line 69
yields the least multiple of 10 that is at least the base-2 logarithm of the size:
`m <= 2 ^ k` says that the logarithm of `m` is at most `k`. -/
theorem max_magnitude_bin_spec (m : Nat) (hm : 1 ≤ m) (hm2 : m ≤ 2 ^ 60)
    (h1 : m ≠ 2 ^ 50 + 1) (h2 : m ≠ 2 ^ 50 + 2) :
    ∃ mag, max_magnitude_bin m = some mag ∧ 10 ∣ mag ∧ m ≤ 2 ^ mag ∧
      ∀ k, 10 ∣ k → m ≤ 2 ^ k → mag ≤ k := by
  refine ⟨(Nat.clog 2 m + 9) / 10 * 10, ?_, Nat.dvd_mul_left _ _, ?_, ?_⟩
  · unfold max_magnitude_bin
    rw [if_neg (by omega), if_neg (by omega), if_neg (by omega)]
  · apply (Nat.le_pow_iff_clog_le (by decide)).mpr
    omega
  · intro k hk hle
    have := (Nat.le_pow_iff_clog_le (by decide)).mp hle
    obtain ⟨c, rfl⟩ := hk
    omega

theorem separators_loop_spec (mag : Nat) (hmag : mag ≤ 60) :
    ∀ fuel i (arr : List Nat), mag / 10 + 1 ≤ fuel + i → mag / 10 < arr.length →
      ∃ arr', separators_loop mag fuel i (10 * i) arr = some arr' ∧
        arr'.length = arr.length ∧
        ∀ j, arr'[j]? =
          if i ≤ j ∧ j ≤ mag / 10 then some (2 ^ (10 * j)) else arr[j]? := by
  intro fuel
  induction fuel with
  | zero =>
    intro i arr hf _
    refine ⟨arr, ?_, rfl, ?_⟩
    · rw [separators_loop, if_neg (by omega)]
    · intro j
      rw [if_neg (by omega)]
  | succ fuel ih =>
    intro i arr hf hlen
    by_cases hle : 10 * i ≤ mag
    · have hpow : 2 ^ (10 * i) < 2 ^ 64 := Nat.pow_lt_pow_right (by decide) (by omega)
      have hi : i < arr.length := by omega
      obtain ⟨arr', hres, hlen', hget⟩ :=
        ih (i + 1) (arr.set i (2 ^ (10 * i))) (by omega) (by simpa using hlen)
      refine ⟨arr', ?_, by simpa using hlen', ?_⟩
      · rw [separators_loop, if_pos hle, if_pos ⟨hpow, hi⟩]
        exact hres
      · intro j
        rw [hget, List.getElem?_set]
        by_cases h1 : i = j
        · subst h1
          rw [if_neg (by omega), if_pos rfl, if_pos hi, if_pos (by omega)]
        · rw [if_neg h1]
          by_cases h2 : i + 1 ≤ j ∧ j ≤ mag / 10
          · rw [if_pos h2, if_pos (by omega)]
          · rw [if_neg h2, if_neg (by omega)]
    · refine ⟨arr, ?_, rfl, ?_⟩
      · rw [separators_loop, if_neg hle]
      · intro j
        rw [if_neg (by omega)]

/-- What `create_default_separators` leaves behind when line 69 yields at most 60: the
powers `2 ^ 0, 2 ^ 10, ..., 2 ^ mag` in the slots 0 to `mag / 10`, the other slots as they
were, and the count `mag / 10`. -/
theorem create_default_separators_of_magnitude (o : distribute_option) (m mag : Nat)
    (hlen : o.separators.length = MAX_DISTRIBUTE_SEPARATORS)
    (hm : max_magnitude_bin m = some mag) (hmag : mag ≤ 60) :
    create_default_separators o m =
      some (⟨o.separator_number,
        (List.range (mag / 10 + 1)).map (fun i => 2 ^ (10 * i)) ++
          o.separators.drop (mag / 10 + 1)⟩, mag / 10) := by
  simp only [MAX_DISTRIBUTE_SEPARATORS] at hlen
  obtain ⟨arr', hres, hlen', hget⟩ :=
    separators_loop_spec mag hmag mag 1 (o.separators.set 0 1) (by omega)
      (by simp; omega)
  have harr : arr' = (List.range (mag / 10 + 1)).map (fun i => 2 ^ (10 * i)) ++
      o.separators.drop (mag / 10 + 1) := by
    apply List.ext_getElem?
    intro j
    rw [hget, List.getElem?_set]
    by_cases hj : j ≤ mag / 10
    · rw [List.getElem?_append_left (by simp; omega)]
      rcases Nat.eq_zero_or_pos j with h0 | h0
      · subst h0
        have hne : o.separators ≠ [] := by
          intro h; rw [h] at hlen; simp at hlen
        simp [hne]
      · rw [if_pos ⟨h0, hj⟩, List.getElem?_map,
          List.getElem?_eq_getElem (by simp; omega)]
        simp
    · rw [if_neg (by omega), if_neg (by omega),
        List.getElem?_append_right (by simp; omega), List.getElem?_drop]
      congr 1
      simp
      omega
  unfold create_default_separators
  rw [hm]
  simp only []
  rw [if_pos (by omega)]
  have hres' : separators_loop mag mag 1 10 (o.separators.set 0 1) = some arr' := hres
  rw [hres', harr]

theorem separators_loop_70 :
    ∀ fuel i (arr : List Nat), i ≤ 7 → 7 < fuel + i →
      separators_loop 70 fuel i (10 * i) arr = none := by
  intro fuel
  induction fuel with
  | zero => intro i arr h1 h2; omega
  | succ fuel ih =>
    intro i arr h1 h2
    rw [separators_loop, if_pos (by omega)]
    by_cases hc : 2 ^ (10 * i) < 2 ^ 64 ∧ i < arr.length
    · rw [if_pos hc]
      have hi : i ≠ 7 := by
        intro h
        rw [h] at hc
        exact absurd hc.1 (by decide)
      exact ih (i + 1) _ (by omega) (by omega)
    · rw [if_neg hc]

/-- When line 69 yields 70, the loop of lines 77-80 comes to store `pow(2, 70)`, and the
call has no defined result. -/
theorem create_default_separators_of_magnitude_70 (o : distribute_option) (m : Nat)
    (hm : max_magnitude_bin m = some 70) : create_default_separators o m = none := by
  unfold create_default_separators
  rw [hm]
  simp only []
  have h := separators_loop_70 70 1 (o.separators.set 0 1) (by decide) (by decide)
  have h' : separators_loop 70 70 1 10 (o.separators.set 0 1) = none := h
  rw [h']
  split <;> rfl

/-! ## The loop of `distribution_parse` -/

theorem takeWhile_comma_free (t : List Char) (h : ',' ∉ t) :
    t.takeWhile (fun x => x ≠ ',') = t := by
  rw [List.takeWhile_eq_self_iff]
  intro x hx
  have : x ≠ ',' := fun hc => h (hc ▸ hx)
  simpa using this

theorem takeWhile_comma_append (t r : List Char) (h : ',' ∉ t) :
    (t ++ ',' :: r).takeWhile (fun x => x ≠ ',') = t := by
  induction t with
  | nil => simp
  | cons c cs ih =>
    have hc : c ≠ ',' := fun hc => h (hc ▸ List.mem_cons_self _ _)
    have hcs : ',' ∉ cs := fun hm => h (List.mem_cons_of_mem _ hm)
    simpa [List.takeWhile_cons, hc] using ih hcs

theorem dropWhile_comma_append (t r : List Char) (h : ',' ∉ t) :
    (t ++ ',' :: r).dropWhile (fun x => x ≠ ',') = ',' :: r := by
  induction t with
  | nil => simp
  | cons c cs ih =>
    have hc : c ≠ ',' := fun hc => h (hc ▸ List.mem_cons_self _ _)
    have hcs : ',' ∉ cs := fun hm => h (List.mem_cons_of_mem _ hm)
    simpa [List.dropWhile_cons, hc] using ih hcs

/-- One pass of the loop on a text that is not empty. -/
theorem parse_loop_succ (f : List Char → Option Nat) (fuel : Nat) (ptr : List Char)
    (o : distribute_option) (h : ptr ≠ []) :
    parse_loop f (fuel + 1) (some ptr) o =
      match f (ptr.takeWhile (fun x => x ≠ ',')) with
      | none => some (-1, o, some (parse_report.invalid_separator
          (ptr.takeWhile (fun x => x ≠ ','))))
      | some separator =>
        match distribute_separator_add o separator with
        | none => none
        | some (r, o') =>
          if r ≠ 0 then some (-1, o', some (parse_report.duplicated_separator separator))
          else parse_loop f fuel
            (if ',' ∈ ptr then some ((ptr.dropWhile (fun x => x ≠ ',')).drop 1) else none) o' := by
  cases ptr with
  | nil => exact absurd rfl h
  | cons c cs => rfl

theorem parse_loop_none (f : List Char → Option Nat) (fuel : Nat) (o : distribute_option) :
    parse_loop f fuel none o = some (0, o, none) := by
  cases fuel <;> rfl

theorem parse_loop_nil (f : List Char → Option Nat) (fuel : Nat) (o : distribute_option) :
    parse_loop f fuel (some []) o = some (0, o, none) := by
  cases fuel <;> rfl

/-- On a comma-separated list of tokens the loop of `distribution_parse` does not run
out of its budget and makes the passes of `parse_tokens` over the tokens it reads. -/
theorem parse_loop_join_tokens (f : List Char → Option Nat) :
    ∀ (tokens : List (List Char)) (fuel : Nat) (o : distribute_option),
      (∀ t ∈ tokens, ',' ∉ t) → (join_tokens tokens).length ≤ fuel →
      parse_loop f fuel (some (join_tokens tokens)) o =
        parse_tokens f (read_tokens tokens) o := by
  intro tokens
  induction tokens with
  | nil =>
    intro fuel o _ _
    simp [join_tokens, read_tokens, parse_tokens, parse_loop_nil]
  | cons t rest ih =>
    intro fuel o hcomma hfuel
    have ht : ',' ∉ t := hcomma t (List.mem_cons_self _ _)
    cases rest with
    | nil =>
      simp only [join_tokens] at hfuel ⊢
      by_cases hnil : t = []
      · subst hnil
        simp [read_tokens, parse_tokens, parse_loop_nil]
      · obtain ⟨fuel, rfl⟩ : ∃ k, fuel = k + 1 := by
          have : 0 < t.length := List.length_pos.mpr hnil
          exact ⟨fuel - 1, by omega⟩
        rw [parse_loop_succ f fuel t o hnil, takeWhile_comma_free t ht, if_neg ht]
        simp only [read_tokens, if_neg hnil, parse_tokens, parse_loop_none]
    | cons t' rest' =>
      simp only [join_tokens, List.length_append, List.length_cons] at hfuel ⊢
      obtain ⟨fuel, rfl⟩ : ∃ k, fuel = k + 1 := ⟨fuel - 1, by omega⟩
      have hne : t ++ ',' :: join_tokens (t' :: rest') ≠ [] := by simp
      rw [parse_loop_succ f fuel _ o hne, takeWhile_comma_append t _ ht,
        dropWhile_comma_append t _ ht, if_pos (by simp)]
      simp only [read_tokens, parse_tokens, List.drop_succ_cons, List.drop_zero]
      cases f t with
      | none => rfl
      | some separator =>
        simp only []
        cases distribute_separator_add o separator with
        | none => rfl
        | some ro =>
          obtain ⟨r, o'⟩ := ro
          simp only []
          by_cases hr : r ≠ 0
          · rw [if_pos hr, if_pos hr]
          · rw [if_neg hr, if_neg hr]
            exact ih fuel o' (fun x hx => hcomma x (List.mem_cons_of_mem _ hx)) (by omega)

/-- While the tokens are accepted and their values are inserted, the passes go on with
the next token. -/
theorem parse_tokens_prefix (f : List Char → Option Nat) (more : List (List Char)) :
    ∀ (tokens : List (List Char)) (values : List Nat) (o o' : distribute_option),
      tokens.map f = values.map some → insert_all o values = some o' →
      parse_tokens f (tokens ++ more) o = parse_tokens f more o' := by
  intro tokens
  induction tokens with
  | nil =>
    intro values o o' hv hins
    cases values with
    | nil =>
      simp only [insert_all, Option.some.injEq] at hins
      rw [hins]; rfl
    | cons v vs => simp at hv
  | cons t ts ih =>
    intro values o o' hv hins
    cases values with
    | nil => simp at hv
    | cons v vs =>
      simp only [List.map_cons, List.cons.injEq] at hv
      obtain ⟨hft, hrest⟩ := hv
      simp only [insert_all] at hins
      cases hd : distribute_separator_add o v with
      | none => rw [hd] at hins; simp at hins
      | some ro =>
        obtain ⟨r, o1⟩ := ro
        rw [hd] at hins
        simp only [] at hins
        by_cases hr : r = 0
        · rw [if_pos hr] at hins
          simp only [List.cons_append, parse_tokens, hft, hd]
          rw [if_neg (by simpa using hr)]
          exact ih vs o1 o' hrest hins
        · rw [if_neg hr] at hins
          simp at hins

theorem read_tokens_of_getLast :
    ∀ tokens : List (List Char), tokens.getLast? ≠ some [] → read_tokens tokens = tokens := by
  intro tokens
  induction tokens with
  | nil => intro _; rfl
  | cons t rest ih =>
    intro h
    cases rest with
    | nil =>
      have ht : t ≠ [] := by
        intro hnil
        apply h
        simp [hnil]
      simp [read_tokens, ht]
    | cons t' rest' =>
      simp only [read_tokens]
      rw [ih (by simpa [List.getLast?_cons_cons] using h)]

/-- A token that is not an empty token at the very end is read by the loop, as every
token before it. -/
theorem read_tokens_append_cons (bad : List Char) (post : List (List Char))
    (h : ¬ (bad = [] ∧ post = [])) :
    ∀ pre : List (List Char), ∃ later,
      read_tokens (pre ++ bad :: post) = pre ++ bad :: later := by
  intro pre
  induction pre with
  | nil =>
    cases post with
    | nil =>
      have hb : bad ≠ [] := fun hb => h ⟨hb, rfl⟩
      exact ⟨[], by simp [read_tokens, hb]⟩
    | cons t ts => exact ⟨read_tokens (t :: ts), by simp [read_tokens]⟩
  | cons t ts ih =>
    obtain ⟨later, hl⟩ := ih
    refine ⟨later, ?_⟩
    cases ts with
    | nil =>
      simp only [List.nil_append, List.cons_append] at hl ⊢
      simp only [read_tokens, hl]
    | cons t' ts' =>
      simp only [List.cons_append] at hl ⊢
      simp only [read_tokens, hl]

/-- After the keyword and a colon `distribution_parse` resets the count and runs its
loop on the rest of the text. -/
theorem distribution_parse_size_colon (f : List Char → Option Nat) (o : distribute_option)
    (rest : List Char) :
    distribution_parse f o (size_keyword ++ ':' :: rest) =
      parse_loop f (rest.length + 5) (some rest) ⟨0, o.separators⟩ := by
  simp [distribution_parse, size_keyword]

/-- The call `distribution_parse` on the keyword, a colon and a comma-separated list of
tokens makes the passes of `parse_tokens` over the tokens it reads, starting from the
count 0. -/
theorem distribution_parse_join_tokens (f : List Char → Option Nat) (o : distribute_option)
    (tokens : List (List Char)) (hcomma : ∀ t ∈ tokens, ',' ∉ t) :
    distribution_parse f o (size_keyword ++ ':' :: join_tokens tokens) =
      parse_tokens f (read_tokens tokens) ⟨0, o.separators⟩ := by
  rw [distribution_parse_size_colon,
    parse_loop_join_tokens f tokens _ _ hcomma (by omega)]

/-! ## The histogram on the default separators -/

theorem foldl_max_bounds (sizes : List Nat) :
    ∀ init : Nat,
      init ≤ sizes.foldl (fun local_max file_size =>
        if file_size > local_max then file_size else local_max) init ∧
      (∀ x ∈ sizes, x ≤ sizes.foldl (fun local_max file_size =>
        if file_size > local_max then file_size else local_max) init) ∧
      (∀ b, init ≤ b → (∀ x ∈ sizes, x ≤ b) → sizes.foldl (fun local_max file_size =>
        if file_size > local_max then file_size else local_max) init ≤ b) := by
  induction sizes with
  | nil => intro init; simp
  | cons y ys ih =>
    intro init
    simp only [List.foldl_cons, List.mem_cons, forall_eq_or_imp]
    obtain ⟨h1, h2, h3⟩ := ih (if y > init then y else init)
    refine ⟨?_, ⟨?_, h2⟩, ?_⟩
    · refine Nat.le_trans ?_ h1
      split <;> omega
    · refine Nat.le_trans ?_ h1
      split <;> omega
    · intro b hb hall
      apply h3 b
      · split
        · exact hall.1
        · exact hb
      · exact hall.2

theorem le_local_max_file_size (sizes : List Nat) :
    (∀ x ∈ sizes, x ≤ local_max_file_size sizes) ∧
    (∀ b, (∀ x ∈ sizes, x ≤ b) → local_max_file_size sizes ≤ b) := by
  obtain ⟨_, h2, h3⟩ := foldl_max_bounds sizes 0
  exact ⟨h2, fun b hb => h3 b (Nat.zero_le _) hb⟩

theorem foldl_nat_max_bounds (locals : List Nat) :
    ∀ init : Nat,
      init ≤ locals.foldl max init ∧
      (∀ x ∈ locals, x ≤ locals.foldl max init) ∧
      (∀ b, init ≤ b → (∀ x ∈ locals, x ≤ b) → locals.foldl max init ≤ b) := by
  induction locals with
  | nil => intro init; simp
  | cons y ys ih =>
    intro init
    simp only [List.foldl_cons, List.mem_cons, forall_eq_or_imp]
    obtain ⟨h1, h2, h3⟩ := ih (max init y)
    refine ⟨Nat.le_trans (Nat.le_max_left _ _) h1,
      ⟨Nat.le_trans (Nat.le_max_right _ _) h1, h2⟩, ?_⟩
    intro b hb hall
    exact h3 b (Nat.max_le.mpr ⟨hb, hall.1⟩) hall.2

/-- The reduced maximum of the local maxima is the largest file size of all ranks. -/
theorem global_max_eq (ranks : List (List Nat)) (m : Nat) (hmem : m ∈ ranks.flatten)
    (hmax : ∀ x ∈ ranks.flatten, x ≤ m) :
    MPI_Allreduce_MAX (ranks.map local_max_file_size) = m := by
  obtain ⟨_, h2, h3⟩ := foldl_nat_max_bounds (ranks.map local_max_file_size) 0
  apply Nat.le_antisymm
  · apply h3 m (Nat.zero_le _)
    intro v hv
    obtain ⟨r, hr, rfl⟩ := List.mem_map.mp hv
    apply (le_local_max_file_size r).2
    intro x hx
    exact hmax x (List.mem_flatten.mpr ⟨r, hr, hx⟩)
  · obtain ⟨r, hr, hx⟩ := List.mem_flatten.mp hmem
    exact Nat.le_trans ((le_local_max_file_size r).1 m hx)
      (h2 _ (List.mem_map_of_mem _ hr))

/-- When no file size exceeds separator `n`, the counters for `n` separators are the
first `n + 1` counters for `n + 1` separators, and the last counter of the latter is 0. -/
theorem bin_counts_succ (o : distribute_option) (n : Nat) (sizes : List Nat)
    (htop : ∀ x ∈ sizes, x ≤ o.separators.getD n 0) :
    bin_counts o n sizes = (bin_counts o (n + 1) sizes).take (n + 1) ∧
    (bin_counts o (n + 1) sizes).getD (n + 1) 0 = 0 := by
  constructor
  · unfold bin_counts
    rw [← List.map_take, List.take_range, Nat.min_eq_left (by omega)]
    apply List.map_congr_left
    intro k hk
    have hkn : k ≤ n := by have := List.mem_range.mp hk; omega
    apply List.countP_congr
    intro x hx
    simp only [beq_iff_eq, bin_index_eq_iff]
    have hx' := htop x hx
    constructor
    · rintro (⟨h1, h2, h3⟩ | ⟨h1, h2⟩)
      · exact Or.inl ⟨by omega, h2, h3⟩
      · subst h1
        exact Or.inl ⟨by omega, hx', h2⟩
    · rintro (⟨h1, h2, h3⟩ | ⟨h1, _⟩)
      · rcases Nat.lt_or_ge k n with h | h
        · exact Or.inl ⟨h, h2, h3⟩
        · have hk' : k = n := by omega
          subst hk'
          exact Or.inr ⟨rfl, h3⟩
      · omega
  · rw [getD_bin_counts o (n + 1) sizes (n + 1) (Nat.le_refl _), List.countP_eq_zero]
    intro x hx
    simp only [beq_iff_eq, bin_index_eq_iff]
    have hx' := htop x hx
    rintro (⟨h1, _⟩ | ⟨_, h2⟩)
    · omega
    · have := h2 n (by omega)
      omega

/-! ## Claims on `distribute_separator_add` -/

/-- C1: on a set whose first `separator_number` entries ascend strictly, with
`separator_number < 128`, and a value not among them, `distribute_separator_add` returns
0; the new set has `separator_number + 1` entries, ascends strictly, and is the old
entries with the value written at `pos`, the lowest index whose old entry is at least the
value (or the end): entries before `pos` unchanged, entries from `pos` on moved right by
one. -/
theorem distribute_separator_add_inserts (o : distribute_option) (value : Nat)
    (hlen : o.separators.length = MAX_DISTRIBUTE_SEPARATORS)
    (hn : o.separator_number < MAX_DISTRIBUTE_SEPARATORS)
    (hasc : (o.separators.take o.separator_number).Pairwise (· < ·))
    (hnew : value ∉ o.separators.take o.separator_number) :
    ∃ o' pos, distribute_separator_add o value = some (0, o') ∧
      o'.separator_number = o.separator_number + 1 ∧
      (o'.separators.take o'.separator_number).Pairwise (· < ·) ∧
      pos ≤ o.separator_number ∧
      (∀ i, i < pos → o.separators.getD i 0 < value) ∧
      (pos < o.separator_number → value ≤ o.separators.getD pos 0) ∧
      o'.separators.take o'.separator_number =
        (o.separators.take o.separator_number).take pos ++
          value :: (o.separators.take o.separator_number).drop pos := by
  obtain ⟨o', pos, hres, hnum, _, hpos, hlo, hhi, htake, _, hasc'⟩ :=
    distribute_separator_add_insert o value hlen hn hasc hnew
  refine ⟨o', pos, hres, hnum, ?_, hpos, hlo, ?_, ?_⟩
  · rw [hnum]; exact hasc'
  · intro h; exact Nat.le_of_lt (hhi pos (Nat.le_refl _) h)
  · rw [hnum]; exact htake

theorem distribute_separator_add_inserts_witness :
    ∃ o' pos, distribute_separator_add option_1_5_9 4 = some (0, o') ∧
      o'.separator_number = option_1_5_9.separator_number + 1 ∧
      (o'.separators.take o'.separator_number).Pairwise (· < ·) ∧
      pos ≤ option_1_5_9.separator_number ∧
      (∀ i, i < pos → option_1_5_9.separators.getD i 0 < 4) ∧
      (pos < option_1_5_9.separator_number → 4 ≤ option_1_5_9.separators.getD pos 0) ∧
      o'.separators.take o'.separator_number =
        (option_1_5_9.separators.take option_1_5_9.separator_number).take pos ++
          4 :: (option_1_5_9.separators.take option_1_5_9.separator_number).drop pos :=
  distribute_separator_add_inserts option_1_5_9 4 rfl (by decide) (by decide)
    (by decide)

/-- C2: at the set 1, 5, 9 and the value 5, which it holds, `distribute_separator_add`
returns -1 and leaves the stored values as they were, but the count `separator_number`
is 4 after the call, not 3: it is incremented before the search (line 205) and the
failure paths do not take the increment back. -/
theorem distribute_separator_add_duplicate_count :
    distribute_separator_add option_1_5_9 5 =
        some (-1, { separator_number := 4, separators := option_1_5_9.separators }) ∧
      option_1_5_9.separator_number = 3 := by
  decide

/-- C3: inserting at most 128 pairwise distinct values one by one into an empty set
succeeds at every step and ends with exactly `l.length` used slots holding the ascending
sort of the values (the unused slots keep their content); so every other order of the
same values ends in the same set. -/
theorem insert_all_order_independent (l init : List Nat)
    (hinit : init.length = MAX_DISTRIBUTE_SEPARATORS)
    (hl : l.length ≤ MAX_DISTRIBUTE_SEPARATORS) (hnd : l.Nodup) :
    insert_all ⟨0, init⟩ l =
        some ⟨l.length, l.insertionSort (· ≤ ·) ++ init.drop l.length⟩ ∧
      ∀ l' : List Nat, l'.Perm l → insert_all ⟨0, init⟩ l' = insert_all ⟨0, init⟩ l := by
  refine ⟨insert_all_empty l init hinit hl hnd, ?_⟩
  intro l' hp
  rw [insert_all_empty l init hinit hl hnd,
    insert_all_empty l' init hinit (by rw [hp.length_eq]; exact hl) (hp.nodup_iff.mpr hnd),
    hp.length_eq]
  congr 3
  apply List.eq_of_perm_of_sorted (r := (· ≤ ·))
  · exact ((List.perm_insertionSort _ l').trans hp).trans (List.perm_insertionSort _ l).symm
  · exact List.sorted_insertionSort _ l'
  · exact List.sorted_insertionSort _ l

theorem insert_all_order_independent_witness :
    insert_all ⟨0, List.replicate 128 0⟩ [5, 3, 9, 1] =
        some ⟨[5, 3, 9, 1].length,
          [5, 3, 9, 1].insertionSort (· ≤ ·) ++ (List.replicate 128 0).drop [5, 3, 9, 1].length⟩ ∧
      ∀ l' : List Nat, l'.Perm [5, 3, 9, 1] →
        insert_all ⟨0, List.replicate 128 0⟩ l' =
          insert_all ⟨0, List.replicate 128 0⟩ [5, 3, 9, 1] :=
  insert_all_order_independent [5, 3, 9, 1] (List.replicate 128 0) rfl (by decide)
    (by decide)

/-- C4: on a set of at most 128 entries that ascend strictly, `distribute_separator_add`
returns 0 or -1, and it returns -1 exactly when the set already holds 128 entries or the
value is already among them; with 128 entries the call fails whatever the value and no
stored separator is written. -/
theorem distribute_separator_add_fails_iff (o : distribute_option) (value : Nat)
    (hlen : o.separators.length = MAX_DISTRIBUTE_SEPARATORS)
    (hn : o.separator_number ≤ MAX_DISTRIBUTE_SEPARATORS)
    (hasc : (o.separators.take o.separator_number).Pairwise (· < ·)) :
    ∃ r o', distribute_separator_add o value = some (r, o') ∧
      (r = 0 ∨ r = -1) ∧
      (r = -1 ↔ (o.separator_number = MAX_DISTRIBUTE_SEPARATORS ∨
        value ∈ o.separators.take o.separator_number)) ∧
      (o.separator_number = MAX_DISTRIBUTE_SEPARATORS → o'.separators = o.separators) := by
  rcases distribute_separator_add_cases o value hlen hn hasc with
    ⟨h, hres⟩ | ⟨hlt, h, hres⟩ | ⟨hlt, h, pos, _, _, _, hres⟩
  · exact ⟨_, _, hres, Or.inr rfl, ⟨fun _ => Or.inl h, fun _ => rfl⟩, fun _ => rfl⟩
  · exact ⟨_, _, hres, Or.inr rfl, ⟨fun _ => Or.inr h, fun _ => rfl⟩, fun _ => rfl⟩
  · refine ⟨_, _, hres, Or.inl rfl, ⟨fun h0 => absurd h0 (by decide), ?_⟩, ?_⟩
    · rintro (h1 | h1)
      · omega
      · exact absurd h1 h
    · intro h1; omega

theorem distribute_separator_add_fails_iff_witness :
    ∃ r o', distribute_separator_add option_1_5_9 9 = some (r, o') ∧
      (r = 0 ∨ r = -1) ∧
      (r = -1 ↔ (option_1_5_9.separator_number = MAX_DISTRIBUTE_SEPARATORS ∨
        9 ∈ option_1_5_9.separators.take option_1_5_9.separator_number)) ∧
      (option_1_5_9.separator_number = MAX_DISTRIBUTE_SEPARATORS →
        o'.separators = option_1_5_9.separators) :=
  distribute_separator_add_fails_iff option_1_5_9 9 rfl (by decide) (by decide)


/-! ## Claims on the counting loop -/

/-- C8, as stated, fails: for the maximum size 1024 the magnitude is 10 and the slots 0
and 1 hold 1 and 1024, but the count reported is 1, not `10 / 10 + 1 = 2`, so the set
handed to the histogram is the single separator 1.  Besides, for the maximum size
`2 ^ 50 + 1`, whose logarithm exceeds 50, the double arithmetic of line 69 yields 50, so
that the stored separators end with `2 ^ 50` and the count is 5; and for the maximum
size `2 ^ 62` (magnitude 70) the call has no defined result. -/
theorem create_default_separators_count_counterexample :
    max_magnitude_bin 1024 = some 10 ∧
    (create_default_separators option_1_5_9 1024).map Prod.snd = some 1 ∧
    (create_default_separators option_1_5_9 1024).map
      (fun r => r.1.separators.take r.2) = some [1] ∧
    (create_default_separators option_1_5_9 1024).map
      (fun r => r.1.separators.take 2) = some [1, 1024] ∧
    max_magnitude_bin (2 ^ 50 + 1) = some 50 ∧
    2 ^ 50 < 2 ^ 50 + 1 ∧
    (create_default_separators option_1_5_9 (2 ^ 50 + 1)).map
        (fun r => (r.1.separators.take 7, r.2)) =
      some ([1, 2 ^ 10, 2 ^ 20, 2 ^ 30, 2 ^ 40, 2 ^ 50, 0], 5) ∧
    max_magnitude_bin (2 ^ 62) = some 70 ∧
    create_default_separators option_1_5_9 (2 ^ 62) = none := by
  have h1 : max_magnitude_bin 1024 = some 10 :=
    max_magnitude_bin_eq 1024 0 (by decide) (by decide) (by decide) (by decide)
  have h2 : max_magnitude_bin (2 ^ 62) = some 70 :=
    max_magnitude_bin_eq (2 ^ 62) 6 (by decide) (by decide) (by decide) (by decide)
  have h3 := create_default_separators_of_magnitude option_1_5_9 1024 10 rfl h1 (by decide)
  have h4 : max_magnitude_bin (2 ^ 50 + 1) = some 50 := by decide
  have h5 := create_default_separators_of_magnitude option_1_5_9 (2 ^ 50 + 1) 50 rfl h4
    (by decide)
  refine ⟨h1, ?_, ?_, ?_, h4, by decide, ?_, h2, ?_⟩
  · rw [h3]; rfl
  · rw [h3]; rfl
  · rw [h3]; rfl
  · rw [h5]; rfl
  · exact create_default_separators_of_magnitude_70 option_1_5_9 (2 ^ 62) h2

/-- C8, amended: for a maximum size `m` with `1 <= m <= 2 ^ 60`, other than the two
sizes `2 ^ 50 + 1` and `2 ^ 50 + 2` at which the double arithmetic of line 69 rounds
down, and `mag` the least multiple of 10 that is at least the base-2 logarithm of `m`,
`create_default_separators` stores `1, 2 ^ 10, ..., 2 ^ mag` in the slots 0 to
`mag / 10`, leaves the other slots and `separator_number` as they were, and reports the
count `mag / 10`: the first `mag / 10` slots, which the histogram classifies against,
hold `1, 2 ^ 10, ..., 2 ^ (mag - 10)`. -/
theorem create_default_separators_stores (o : distribute_option) (m : Nat)
    (hlen : o.separators.length = MAX_DISTRIBUTE_SEPARATORS)
    (hm1 : 1 ≤ m) (hm2 : m ≤ 2 ^ 60) (hr1 : m ≠ 2 ^ 50 + 1) (hr2 : m ≠ 2 ^ 50 + 2) :
    ∃ mag, (10 ∣ mag ∧ m ≤ 2 ^ mag ∧ ∀ k, 10 ∣ k → m ≤ 2 ^ k → mag ≤ k) ∧
      ∃ o', create_default_separators o m = some (o', mag / 10) ∧
        o'.separators.take (mag / 10 + 1) =
          (List.range (mag / 10 + 1)).map (fun i => 2 ^ (10 * i)) ∧
        o'.separators.drop (mag / 10 + 1) = o.separators.drop (mag / 10 + 1) ∧
        o'.separator_number = o.separator_number ∧
        o'.separators.take (mag / 10) =
          (List.range (mag / 10)).map (fun i => 2 ^ (10 * i)) := by
  obtain ⟨mag, hmag, hdvd, hle, hmin⟩ := max_magnitude_bin_spec m hm1 hm2 hr1 hr2
  have h60 : mag ≤ 60 := hmin 60 (by decide) hm2
  refine ⟨mag, ⟨hdvd, hle, hmin⟩, _,
    create_default_separators_of_magnitude o m mag hlen hmag h60, ?_, ?_, rfl, ?_⟩
  · exact List.take_left' (by simp)
  · exact List.drop_left' (by simp)
  · show ((List.range (mag / 10 + 1)).map (fun i => 2 ^ (10 * i)) ++
        o.separators.drop (mag / 10 + 1)).take (mag / 10) = _
    rw [List.take_append_of_le_length (by simp), ← List.map_take, List.take_range,
      Nat.min_eq_left (by omega)]

theorem create_default_separators_stores_witness :
    ∃ mag, (10 ∣ mag ∧ 1025 ≤ 2 ^ mag ∧ ∀ k, 10 ∣ k → 1025 ≤ 2 ^ k → mag ≤ k) ∧
      ∃ o', create_default_separators option_1_5_9 1025 = some (o', mag / 10) ∧
        o'.separators.take (mag / 10 + 1) =
          (List.range (mag / 10 + 1)).map (fun i => 2 ^ (10 * i)) ∧
        o'.separators.drop (mag / 10 + 1) = option_1_5_9.separators.drop (mag / 10 + 1) ∧
        o'.separator_number = option_1_5_9.separator_number ∧
        o'.separators.take (mag / 10) =
          (List.range (mag / 10)).map (fun i => 2 ^ (10 * i)) :=
  create_default_separators_stores option_1_5_9 1025 rfl (by decide) (by decide)
    (by decide) (by decide)

/-- C9: for the global maximum size 0, reached by ranks whose lists are empty or hold
only files of size 0, `create_default_separators` has no guarded path: line 69 evaluates
`log2(0)` and converts minus infinity to `uint64_t`, so the call, and with it the
histogram, has no defined result. -/
theorem create_default_separators_zero :
    MPI_Allreduce_MAX ([[], [0, 0]].map local_max_file_size) = 0 ∧
    max_magnitude_bin 0 = none ∧
    create_default_separators option_1_5_9 0 = none ∧
    print_flist_distribution true option_1_5_9 [[], [0, 0]] = none := by
  decide

/-- C10: for the global maximum size `2 ^ 61` line 69 yields the magnitude 70, and the
last pass of the loop of lines 77-80 stores `pow(2, 70)`, which is not below `2 ^ 64`,
into a `uint64_t` slot: the call has no defined result. -/
theorem create_default_separators_overflow :
    max_magnitude_bin (2 ^ 61) = some 70 ∧
    ¬ (2 ^ 70 < 2 ^ 64) ∧
    separators_loop 70 1 7 70 (option_1_5_9.separators.set 0 1) = none ∧
    create_default_separators option_1_5_9 (2 ^ 61) = none := by
  have h : max_magnitude_bin (2 ^ 61) = some 70 :=
    max_magnitude_bin_eq (2 ^ 61) 6 (by decide) (by decide) (by decide) (by decide)
  exact ⟨h, by decide, by decide,
    create_default_separators_of_magnitude_70 option_1_5_9 (2 ^ 61) h⟩

/-! ## Claims on `distribution_parse` -/

/-- C11, as stated, fails for a parser that accepts the empty token: the tokens `5` and
the empty text are both accepted, with the distinct values 5 and 0, but in `size:5,` the
loop ends before the empty last token, so the call returns 0 with the single separator 5
and not with the two separators 0 and 5. -/
theorem distribution_parse_sorted_counterexample :
    [['5'], []].map empty_as_zero_abtoull = [some 5, some 0] ∧
    distribution_parse empty_as_zero_abtoull option_1_5_9
        (size_keyword ++ ':' :: join_tokens [['5'], []]) =
      some (0, ⟨1, [5, 5, 9] ++ List.replicate 125 0⟩, none) := by
  decide

/-- C11, amended: with the number parser `mfu_abtoull` as a given function, for every
list of at most 128 tokens (texts without a comma), the last of which is not empty, that
it accepts and resolves to pairwise distinct values, `distribution_parse` on `size:`
followed by the tokens joined by commas returns 0 and prints nothing; the set then holds
as many separators as there are tokens, the resolved values in ascending order, whatever
the count and the slots of the option were before the call. -/
theorem distribution_parse_sorted (mfu_abtoull : List Char → Option Nat)
    (o : distribute_option) (tokens : List (List Char)) (values : List Nat)
    (hlen : o.separators.length = MAX_DISTRIBUTE_SEPARATORS)
    (hlast : tokens.getLast? ≠ some [])
    (hcomma : ∀ t ∈ tokens, ',' ∉ t)
    (hvals : tokens.map mfu_abtoull = values.map some)
    (hnd : values.Nodup)
    (hn : tokens.length ≤ MAX_DISTRIBUTE_SEPARATORS) :
    distribution_parse mfu_abtoull o (size_keyword ++ ':' :: join_tokens tokens) =
      some (0, ⟨values.length,
        values.insertionSort (· ≤ ·) ++ o.separators.drop values.length⟩, none) := by
  have hlv : values.length = tokens.length := by
    have := congrArg List.length hvals
    simpa using this.symm
  have hins := insert_all_empty values o.separators hlen (by omega) hnd
  rw [distribution_parse_join_tokens mfu_abtoull o tokens hcomma,
    read_tokens_of_getLast tokens hlast]
  have := parse_tokens_prefix mfu_abtoull [] tokens values _ _ hvals hins
  rw [List.append_nil] at this
  rw [this]
  rfl

theorem distribution_parse_sorted_witness :
    distribution_parse empty_as_zero_abtoull option_1_5_9
        (size_keyword ++ ':' :: join_tokens [['1', '0', '0'], [], ['7']]) =
      some (0, ⟨[100, 0, 7].length,
        [100, 0, 7].insertionSort (· ≤ ·) ++
          option_1_5_9.separators.drop [100, 0, 7].length⟩, none) :=
  distribution_parse_sorted empty_as_zero_abtoull option_1_5_9
    [['1', '0', '0'], [], ['7']] [100, 0, 7] rfl (by decide) (by decide)
    (by decide) (by decide) (by decide)

set_option maxRecDepth 1000000 in
/-- C12, as stated, fails in two ways.  In `size:100,` the token after the last comma is
empty and a parser for unsigned integers rejects it, but the loop never reads it and the
call returns 0 with the one separator 100.  In
`size:000,001,...,128,000` the first token that repeats a value is the last one, but the
call stops at the token `128`, the 129th, which the parser accepts and which repeats
nothing: the set is full, and that token is the one reported. -/
theorem distribution_parse_first_failure_counterexample :
    decimal_abtoull [] = none ∧
    distribution_parse decimal_abtoull option_1_5_9
        (size_keyword ++ ':' :: join_tokens [['1', '0', '0'], []]) =
      some (0, ⟨1, [100, 5, 9] ++ List.replicate 125 0⟩, none) ∧
    text_130_tokens = size_keyword ++ ':' ::
      join_tokens ((List.range 129).map three_digits ++ [three_digits 0]) ∧
    ((List.range 129).map three_digits).map decimal_abtoull = (List.range 129).map some ∧
    decimal_abtoull (three_digits 0) = some 0 ∧
    (distribution_parse decimal_abtoull option_1_5_9 text_130_tokens).map
        (fun r => (r.1, r.2.2)) =
      some (-1, some (parse_report.duplicated_separator 128)) := by
  refine ⟨by decide, by decide, rfl, by decide, by decide, by decide⟩

/-- C12, amended: let the comma-free tokens after `size:` be `pre`, then `bad`, then
`post`, where the parser accepts the at most 128 tokens of `pre` with pairwise distinct
values, where it rejects `bad` or resolves it to the value of a token of `pre`, and where
`bad` is not an empty token at the very end of the text.  Then `distribution_parse`
returns -1, the slots hold the values of `pre` in ascending order and otherwise what they
held before (no token of `post` is inserted), and what is printed names `bad`: its text
when the parser rejects it, its value when it repeats one. -/
theorem distribution_parse_first_failure (mfu_abtoull : List Char → Option Nat)
    (o : distribute_option) (pre : List (List Char)) (bad : List Char)
    (post : List (List Char)) (values : List Nat)
    (hlen : o.separators.length = MAX_DISTRIBUTE_SEPARATORS)
    (hcomma : ∀ t ∈ pre ++ bad :: post, ',' ∉ t)
    (hvals : pre.map mfu_abtoull = values.map some)
    (hnd : values.Nodup)
    (hn : pre.length ≤ MAX_DISTRIBUTE_SEPARATORS)
    (hbad : mfu_abtoull bad = none ∨ ∃ v ∈ values, mfu_abtoull bad = some v)
    (hlast : ¬ (bad = [] ∧ post = [])) :
    ∃ o' report,
      distribution_parse mfu_abtoull o
          (size_keyword ++ ':' :: join_tokens (pre ++ bad :: post)) =
        some (-1, o', some report) ∧
      o'.separators = values.insertionSort (· ≤ ·) ++ o.separators.drop values.length ∧
      (mfu_abtoull bad = none → report = parse_report.invalid_separator bad) ∧
      (∀ v, mfu_abtoull bad = some v → report = parse_report.duplicated_separator v) := by
  have hlv : values.length = pre.length := by
    have := congrArg List.length hvals
    simpa using this.symm
  have hins := insert_all_empty values o.separators hlen (by omega) hnd
  obtain ⟨o1, hins1, hnum1, hlen1, hasc1, hperm1, _⟩ :=
    insert_all_spec values ⟨0, o.separators⟩ hlen (by simpa using (by omega : values.length ≤ _))
      (by simp) hnd (by simp)
  have ho1 : o1 = ⟨values.length,
      values.insertionSort (· ≤ ·) ++ o.separators.drop values.length⟩ :=
    Option.some.inj (hins1.symm.trans hins)
  simp only [Nat.zero_add, List.take_zero, List.append_nil] at hnum1 hasc1 hperm1
  obtain ⟨later, hread⟩ := read_tokens_append_cons bad post hlast pre
  rw [distribution_parse_join_tokens mfu_abtoull o _ hcomma, hread,
    parse_tokens_prefix mfu_abtoull (bad :: later) pre values _ _ hvals hins1]
  rcases hbad with hrej | ⟨v, hv, hdup⟩
  · refine ⟨o1, parse_report.invalid_separator bad, ?_, ?_, fun _ => rfl, ?_⟩
    · simp [parse_tokens, hrej]
    · rw [ho1]
    · intro v hv; rw [hrej] at hv; simp at hv
  · have hmem : v ∈ o1.separators.take o1.separator_number := by
      rw [hnum1]; exact hperm1.mem_iff.mpr hv
    have hfail : distribute_separator_add o1 v =
        some (-1, ⟨o1.separator_number + 1, o1.separators⟩) := by
      rcases distribute_separator_add_cases o1 v hlen1
          (by rw [hnum1]; omega) (by rw [hnum1]; exact hasc1) with
        ⟨_, h⟩ | ⟨_, _, h⟩ | ⟨_, h, _⟩
      · exact h
      · exact h
      · exact absurd hmem h
    refine ⟨⟨o1.separator_number + 1, o1.separators⟩,
      parse_report.duplicated_separator v, ?_, ?_, ?_, ?_⟩
    · simp [parse_tokens, hdup, hfail]
    · rw [ho1]
    · intro h; rw [hdup] at h; simp at h
    · intro w hw
      rw [hdup] at hw
      rw [Option.some.inj hw]

theorem distribution_parse_first_failure_witness :
    ∃ o' report,
      distribution_parse decimal_abtoull option_1_5_9
          (size_keyword ++ ':' ::
            join_tokens ([['1', '0', '0'], ['5', '0']] ++ ['1', '0', '0'] :: [])) =
        some (-1, o', some report) ∧
      o'.separators =
        [100, 50].insertionSort (· ≤ ·) ++ option_1_5_9.separators.drop [100, 50].length ∧
      (decimal_abtoull ['1', '0', '0'] = none →
        report = parse_report.invalid_separator ['1', '0', '0']) ∧
      (∀ v, decimal_abtoull ['1', '0', '0'] = some v →
        report = parse_report.duplicated_separator v) :=
  distribution_parse_first_failure decimal_abtoull option_1_5_9
    [['1', '0', '0'], ['5', '0']] ['1', '0', '0'] [] [100, 50] rfl (by decide) (by decide)
    (by decide) (by decide) (Or.inr ⟨100, by decide, by decide⟩) (by decide)

/-- C13: for every text, `distribution_parse` returns -1 when the text does not begin
with `size` (the option is then untouched); it returns 0 with `separator_number = 0`
when the text is `size`, whatever the option held; and it returns -1 when `size` is
followed by a character other than a colon. -/
theorem distribution_parse_keyword (mfu_abtoull : List Char → Option Nat)
    (o : distribute_option) (text : List Char) :
    (¬ size_keyword <+: text →
      distribution_parse mfu_abtoull o text = some (-1, o, none)) ∧
    (text = size_keyword →
      distribution_parse mfu_abtoull o text = some (0, ⟨0, o.separators⟩, none)) ∧
    (∀ c rest, text = size_keyword ++ c :: rest → c ≠ ':' →
      distribution_parse mfu_abtoull o text = some (-1, ⟨0, o.separators⟩, none)) := by
  refine ⟨?_, ?_, ?_⟩
  · intro h
    have h4 : text.take 4 ≠ size_keyword := by
      intro heq
      exact h (heq ▸ List.take_prefix 4 text)
    simp only [distribution_parse]
    rw [if_pos h4]
  · rintro rfl
    simp [distribution_parse, size_keyword]
  · rintro c rest rfl hc
    simp [distribution_parse, size_keyword, hc]

theorem distribution_parse_keyword_witness :
    distribution_parse decimal_abtoull option_1_5_9 ['s', 'i', 'z'] =
      some (-1, option_1_5_9, none) ∧
    distribution_parse decimal_abtoull option_1_5_9 size_keyword =
      some (0, ⟨0, option_1_5_9.separators⟩, none) ∧
    distribution_parse decimal_abtoull option_1_5_9 (size_keyword ++ '=' :: ['1']) =
      some (-1, ⟨0, option_1_5_9.separators⟩, none) :=
  ⟨(distribution_parse_keyword decimal_abtoull option_1_5_9 ['s', 'i', 'z']).1 (by decide),
    (distribution_parse_keyword decimal_abtoull option_1_5_9 size_keyword).2.1 rfl,
    (distribution_parse_keyword decimal_abtoull option_1_5_9
      (size_keyword ++ '=' :: ['1'])).2.2 '=' ['1'] rfl (by decide)⟩

/-! ## Claims on `add_type` -/

/-- C14: for each of the characters b, c, d, f, l, p, s, `add_type` returns 1 and the
chain is the old chain with exactly one node appended at its tail, a `MFU_PRED_TYPE` node
that carries the file type mask of the character; for every other character `add_type`
returns -1 and the chain is as it was. -/
theorem add_type_appends (p : List mfu_pred) (t : Char) :
    add_type p 'b' = (1, p ++ [⟨mfu_pred_fn.MFU_PRED_TYPE, pred_arg.mode S_IFBLK⟩]) ∧
    add_type p 'c' = (1, p ++ [⟨mfu_pred_fn.MFU_PRED_TYPE, pred_arg.mode S_IFCHR⟩]) ∧
    add_type p 'd' = (1, p ++ [⟨mfu_pred_fn.MFU_PRED_TYPE, pred_arg.mode S_IFDIR⟩]) ∧
    add_type p 'f' = (1, p ++ [⟨mfu_pred_fn.MFU_PRED_TYPE, pred_arg.mode S_IFREG⟩]) ∧
    add_type p 'l' = (1, p ++ [⟨mfu_pred_fn.MFU_PRED_TYPE, pred_arg.mode S_IFLNK⟩]) ∧
    add_type p 'p' = (1, p ++ [⟨mfu_pred_fn.MFU_PRED_TYPE, pred_arg.mode S_IFIFO⟩]) ∧
    add_type p 's' = (1, p ++ [⟨mfu_pred_fn.MFU_PRED_TYPE, pred_arg.mode S_IFSOCK⟩]) ∧
    (t ∉ ['b', 'c', 'd', 'f', 'l', 'p', 's'] → add_type p t = (-1, p)) := by
  refine ⟨rfl, rfl, rfl, rfl, rfl, rfl, rfl, ?_⟩
  intro h
  simp only [List.mem_cons, List.mem_singleton, List.not_mem_nil, or_false, not_or] at h
  obtain ⟨h1, h2, h3, h4, h5, h6, h7⟩ := h
  simp [add_type, h1, h2, h3, h4, h5, h6, h7]

theorem add_type_appends_witness :
    add_type chain_uid_size 'x' = (-1, chain_uid_size) :=
  (add_type_appends chain_uid_size 'x').2.2.2.2.2.2.2 (by decide)

/-! ## Claims on the histogram with default separators -/

/-- Where line 69 yields the least multiple of 10 that is at least the logarithm: with
`--file_histogram`, for files spread over any ranks whose largest size `m` satisfies
`1 <= m <= 2 ^ 60` and is neither `2 ^ 50 + 1` nor `2 ^ 50 + 2`, no file size exceeds the
stored `2 ^ mag`, and the counts that `print_flist_distribution` prints, from the
classification against the first `mag / 10` separators, are the first `mag / 10 + 1`
counts of the classification against all `mag / 10 + 1` stored separators, whose last
bin stays 0. -/
theorem print_flist_distribution_exact_magnitude (o : distribute_option)
    (ranks : List (List Nat)) (m : Nat)
    (hlen : o.separators.length = MAX_DISTRIBUTE_SEPARATORS)
    (hmem : m ∈ ranks.flatten) (hmax : ∀ x ∈ ranks.flatten, x ≤ m)
    (hm1 : 1 ≤ m) (hm2 : m ≤ 2 ^ 60) (hr1 : m ≠ 2 ^ 50 + 1) (hr2 : m ≠ 2 ^ 50 + 2)
    (hsz : ranks.flatten.length < 2 ^ 64) :
    ∃ mag o', (10 ∣ mag ∧ m ≤ 2 ^ mag ∧ ∀ k, 10 ∣ k → m ≤ 2 ^ k → mag ≤ k) ∧
      create_default_separators o (MPI_Allreduce_MAX (ranks.map local_max_file_size)) =
        some (o', mag / 10) ∧
      o'.separators.getD (mag / 10) 0 = 2 ^ mag ∧
      (∀ x ∈ ranks.flatten, x ≤ 2 ^ mag) ∧
      print_flist_distribution true o ranks = some (disttotal o' (mag / 10) ranks) ∧
      disttotal o' (mag / 10) ranks =
        (disttotal o' (mag / 10 + 1) ranks).take (mag / 10 + 1) ∧
      (disttotal o' (mag / 10 + 1) ranks).getD (mag / 10 + 1) 0 = 0 := by
  obtain ⟨mag, hmag, hdvd, hle, hmin⟩ := max_magnitude_bin_spec m hm1 hm2 hr1 hr2
  have h60 : mag ≤ 60 := hmin 60 (by decide) hm2
  have hgmax := global_max_eq ranks m hmem hmax
  have hcreate := create_default_separators_of_magnitude o m mag hlen hmag h60
  have hmul : 10 * (mag / 10) = mag := Nat.mul_div_cancel' hdvd
  have htop : ((List.range (mag / 10 + 1)).map (fun i => 2 ^ (10 * i)) ++
      o.separators.drop (mag / 10 + 1)).getD (mag / 10) 0 = 2 ^ mag := by
    rw [List.getD_eq_getElem _ _ (by simp; omega), List.getElem_append_left (by simp)]
    simp [hmul]
  have hall : ∀ x ∈ ranks.flatten, x ≤ 2 ^ mag := fun x hx => Nat.le_trans (hmax x hx) hle
  refine ⟨mag, _, ⟨hdvd, hle, hmin⟩, by rw [hgmax]; exact hcreate, htop, hall, ?_, ?_, ?_⟩
  · simp only [print_flist_distribution, if_true]
    rw [hgmax, hcreate]
  · rw [disttotal_eq_bin_counts _ _ _ hsz, disttotal_eq_bin_counts _ _ _ hsz]
    exact (bin_counts_succ _ _ _ (fun x hx => by rw [htop]; exact hall x hx)).1
  · rw [disttotal_eq_bin_counts _ _ _ hsz]
    exact (bin_counts_succ _ _ _ (fun x hx => by rw [htop]; exact hall x hx)).2

/-- C15: for one rank with files of the sizes `2 ^ 50 + 1`, `2 ^ 50` and 7 the largest
size lies between 1 and `2 ^ 60`, but line 69 yields the magnitude 50, not 60: the
stored separators end with `2 ^ 50`, which the largest file exceeds.  The histogram
prints the six counts 0, 1, 0, 0, 0, 2, its last bin holding both large files, while the
classification against all six stored separators gives 0, 1, 0, 0, 0, 1 and an overflow
bin of 1. -/
theorem print_flist_distribution_rounding :
    MPI_Allreduce_MAX ([[2 ^ 50 + 1, 2 ^ 50, 7]].map local_max_file_size) = 2 ^ 50 + 1 ∧
    max_magnitude_bin (2 ^ 50 + 1) = some 50 ∧
    (create_default_separators option_1_5_9 (2 ^ 50 + 1)).map
        (fun r => (r.1.separators.take 6, r.2)) =
      some ([1, 2 ^ 10, 2 ^ 20, 2 ^ 30, 2 ^ 40, 2 ^ 50], 5) ∧
    2 ^ 50 < 2 ^ 50 + 1 ∧
    print_flist_distribution true option_1_5_9 [[2 ^ 50 + 1, 2 ^ 50, 7]] =
      some [0, 1, 0, 0, 0, 2] ∧
    (create_default_separators option_1_5_9 (2 ^ 50 + 1)).map
        (fun r => disttotal r.1 (r.2 + 1) [[2 ^ 50 + 1, 2 ^ 50, 7]]) =
      some [0, 1, 0, 0, 0, 1, 1] := by
  have hg : MPI_Allreduce_MAX ([[2 ^ 50 + 1, 2 ^ 50, 7]].map local_max_file_size) =
      2 ^ 50 + 1 := by decide
  have h4 : max_magnitude_bin (2 ^ 50 + 1) = some 50 := by decide
  have h5 := create_default_separators_of_magnitude option_1_5_9 (2 ^ 50 + 1) 50 rfl h4
    (by decide)
  refine ⟨hg, h4, ?_, by decide, ?_, ?_⟩
  · rw [h5]; rfl
  · simp only [print_flist_distribution, if_true]
    rw [hg, h5]
    rfl
  · rw [h5]; rfl

end Dwalk
